import Mathlib

/-!
# Verification of the BIP-39 core (`libs/common/bitcoin/bip39.py`)

This file gives a shallow embedding of the mnemonic codec of the repository:
`mnemonic_to_bytes`, `mnemonic_from_bytes`, `mnemonic_to_seed` and the helper
`_extract_index`, together with proofs of the specified properties
(round-trips, checksum masking, error taxonomy, totality and the buffer
side effect of `b += checksum`).

Bytes are modelled as `Nat` values (with `< 256` range hypotheses where they
matter), byte strings as `List Nat`. The external `hashlib` module and the
wordlist backend are not part of the sources; they are modelled from the
spec (SHA-256 / PBKDF2-HMAC-SHA512 per their standards, the wordlist as a
2048-entry duplicate-free list fixing the entries the spec's reference
vectors pin down).
-/

set_option maxRecDepth 100000
set_option maxHeartbeats 4000000

namespace Bip39

/-! ### Bytes and bits -/

/-- Big-endian bit list (MSB first) of one byte. -/
def byteBits (x : Nat) : List Bool :=
  [x.testBit 7, x.testBit 6, x.testBit 5, x.testBit 4,
   x.testBit 3, x.testBit 2, x.testBit 1, x.testBit 0]

/-- Big-endian bit list (MSB first) of one 11-bit wordlist index. -/
def natBits11 (x : Nat) : List Bool :=
  [x.testBit 10, x.testBit 9, x.testBit 8, x.testBit 7, x.testBit 6,
   x.testBit 5, x.testBit 4, x.testBit 3, x.testBit 2, x.testBit 1,
   x.testBit 0]

/-- Big-endian bitstream of a byte string. -/
def bytesToBits (bs : List Nat) : List Bool :=
  bs.flatMap byteBits

/-- Value of a big-endian bit list. -/
def bitsToNat (l : List Bool) : Nat :=
  l.foldl (fun a b => 2 * a + b.toNat) 0

/-- Bit number `pos` (MSB first) of the byte string `b`. -/
def bitAt (b : List Nat) (pos : Nat) : Bool :=
  (b.getD (pos / 8) 0).testBit (7 - pos % 8)

/-- Big-endian bytes (width `w`) of a natural number. -/
def natToBytesBE (w x : Nat) : List Nat :=
  (List.range w).map (fun i => (x >>> (8 * (w - 1 - i))) % 256)

/-- Group a byte string into big-endian machine words of `w` bytes each. -/
def bytesToWordsBE (w : Nat) (bs : List Nat) : List Nat :=
  (List.range (bs.length / w)).map (fun i =>
    (List.range w).foldl (fun a j => a * 256 + bs.getD (w * i + j) 0) 0)

/-! ### SHA-256, modelled from the spec

Modelled from the spec: the repository imports `hashlib` (micropython module
or the repository's desktop shim, neither under `src/`); the spec fixes the
checksum function as SHA-256, implemented here per FIPS 180-4. -/

def M32 : Nat := 2 ^ 32

/-- Right rotation of a 32-bit word. -/
def rotr32 (x n : Nat) : Nat :=
  ((x >>> n) ||| (x <<< (32 - n))) % M32

/-- SHA-256 round constants. -/
def sha256K : List Nat :=
  [0x428A2F98, 0x71374491, 0xB5C0FBCF, 0xE9B5DBA5, 0x3956C25B, 0x59F111F1,
   0x923F82A4, 0xAB1C5ED5, 0xD807AA98, 0x12835B01, 0x243185BE, 0x550C7DC3,
   0x72BE5D74, 0x80DEB1FE, 0x9BDC06A7, 0xC19BF174, 0xE49B69C1, 0xEFBE4786,
   0x0FC19DC6, 0x240CA1CC, 0x2DE92C6F, 0x4A7484AA, 0x5CB0A9DC, 0x76F988DA,
   0x983E5152, 0xA831C66D, 0xB00327C8, 0xBF597FC7, 0xC6E00BF3, 0xD5A79147,
   0x06CA6351, 0x14292967, 0x27B70A85, 0x2E1B2138, 0x4D2C6DFC, 0x53380D13,
   0x650A7354, 0x766A0ABB, 0x81C2C92E, 0x92722C85, 0xA2BFE8A1, 0xA81A664B,
   0xC24B8B70, 0xC76C51A3, 0xD192E819, 0xD6990624, 0xF40E3585, 0x106AA070,
   0x19A4C116, 0x1E376C08, 0x2748774C, 0x34B0BCB5, 0x391C0CB3, 0x4ED8AA4A,
   0x5B9CCA4F, 0x682E6FF3, 0x748F82EE, 0x78A5636F, 0x84C87814, 0x8CC70208,
   0x90BEFFFA, 0xA4506CEB, 0xBEF9A3F7, 0xC67178F2]

/-- SHA-256 initial hash state. -/
def sha256H0 : List Nat :=
  [0x6A09E667, 0xBB67AE85, 0x3C6EF372, 0xA54FF53A,
   0x510E527F, 0x9B05688C, 0x1F83D9AB, 0x5BE0CD19]

/-- FIPS 180-4 padding: `0x80`, zeros, 8-byte big-endian bit length. -/
def sha256Pad (msg : List Nat) : List Nat :=
  msg ++ 0x80 :: List.replicate ((119 - msg.length % 64) % 64) 0
      ++ natToBytesBE 8 (8 * msg.length)

/-- Message-schedule extension of the 16 block words to 64. -/
def sha256Schedule (ws : List Nat) : List Nat :=
  (List.range 48).foldl (fun w _ =>
    let n := w.length
    let x15 := w.getD (n - 15) 0
    let x2 := w.getD (n - 2) 0
    let s0 := rotr32 x15 7 ^^^ rotr32 x15 18 ^^^ (x15 >>> 3)
    let s1 := rotr32 x2 17 ^^^ rotr32 x2 19 ^^^ (x2 >>> 10)
    w ++ [(w.getD (n - 16) 0 + s0 + w.getD (n - 7) 0 + s1) % M32]) ws

/-- One SHA-256 compression step over a 64-byte block. -/
def sha256Compress (h : List Nat) (block : List Nat) : List Nat :=
  let w := sha256Schedule (bytesToWordsBE 4 block)
  let st0 := (h.getD 0 0, h.getD 1 0, h.getD 2 0, h.getD 3 0,
              h.getD 4 0, h.getD 5 0, h.getD 6 0, h.getD 7 0)
  let stf := (List.range 64).foldl (fun st t =>
    let (a, b, c, d, e, f, g, hh) := st
    let S1 := rotr32 e 6 ^^^ rotr32 e 11 ^^^ rotr32 e 25
    let ch := (e &&& f) ^^^ ((e ^^^ (M32 - 1)) &&& g)
    let temp1 := (hh + S1 + ch + sha256K.getD t 0 + w.getD t 0) % M32
    let S0 := rotr32 a 2 ^^^ rotr32 a 13 ^^^ rotr32 a 22
    let maj := (a &&& b) ^^^ (a &&& c) ^^^ (b &&& c)
    let temp2 := (S0 + maj) % M32
    ((temp1 + temp2) % M32, a, b, c, (d + temp1) % M32, e, f, g)) st0
  let (a, b, c, d, e, f, g, hh) := stf
  [(h.getD 0 0 + a) % M32, (h.getD 1 0 + b) % M32, (h.getD 2 0 + c) % M32,
   (h.getD 3 0 + d) % M32, (h.getD 4 0 + e) % M32, (h.getD 5 0 + f) % M32,
   (h.getD 6 0 + g) % M32, (h.getD 7 0 + hh) % M32]

/-- SHA-256 digest (32 bytes) of a byte string. -/
def sha256 (msg : List Nat) : List Nat :=
  let padded := sha256Pad msg
  let final := (List.range (padded.length / 64)).foldl
    (fun h i => sha256Compress h ((padded.drop (64 * i)).take 64)) sha256H0
  final.flatMap (natToBytesBE 4)

/-! ### SHA-512, HMAC-SHA512 and PBKDF2, modelled from the spec

Modelled from the spec: `hashlib.pbkdf2_hmac` comes from the external
`hashlib` C usermodule (not under `src/`); the spec fixes seed derivation as
PBKDF2 with HMAC-SHA512, implemented here per FIPS 180-4 / RFC 2104 /
RFC 8018. -/

def M64 : Nat := 2 ^ 64

/-- Right rotation of a 64-bit word. -/
def rotr64 (x n : Nat) : Nat :=
  ((x >>> n) ||| (x <<< (64 - n))) % M64

/-- SHA-512 round constants. -/
def sha512K : List Nat :=
  [0x428A2F98D728AE22, 0x7137449123EF65CD, 0xB5C0FBCFEC4D3B2F,
   0xE9B5DBA58189DBBC, 0x3956C25BF348B538, 0x59F111F1B605D019,
   0x923F82A4AF194F9B, 0xAB1C5ED5DA6D8118, 0xD807AA98A3030242,
   0x12835B0145706FBE, 0x243185BE4EE4B28C, 0x550C7DC3D5FFB4E2,
   0x72BE5D74F27B896F, 0x80DEB1FE3B1696B1, 0x9BDC06A725C71235,
   0xC19BF174CF692694, 0xE49B69C19EF14AD2, 0xEFBE4786384F25E3,
   0x0FC19DC68B8CD5B5, 0x240CA1CC77AC9C65, 0x2DE92C6F592B0275,
   0x4A7484AA6EA6E483, 0x5CB0A9DCBD41FBD4, 0x76F988DA831153B5,
   0x983E5152EE66DFAB, 0xA831C66D2DB43210, 0xB00327C898FB213F,
   0xBF597FC7BEEF0EE4, 0xC6E00BF33DA88FC2, 0xD5A79147930AA725,
   0x06CA6351E003826F, 0x142929670A0E6E70, 0x27B70A8546D22FFC,
   0x2E1B21385C26C926, 0x4D2C6DFC5AC42AED, 0x53380D139D95B3DF,
   0x650A73548BAF63DE, 0x766A0ABB3C77B2A8, 0x81C2C92E47EDAEE6,
   0x92722C851482353B, 0xA2BFE8A14CF10364, 0xA81A664BBC423001,
   0xC24B8B70D0F89791, 0xC76C51A30654BE30, 0xD192E819D6EF5218,
   0xD69906245565A910, 0xF40E35855771202A, 0x106AA07032BBD1B8,
   0x19A4C116B8D2D0C8, 0x1E376C085141AB53, 0x2748774CDF8EEB99,
   0x34B0BCB5E19B48A8, 0x391C0CB3C5C95A63, 0x4ED8AA4AE3418ACB,
   0x5B9CCA4F7763E373, 0x682E6FF3D6B2B8A3, 0x748F82EE5DEFB2FC,
   0x78A5636F43172F60, 0x84C87814A1F0AB72, 0x8CC702081A6439EC,
   0x90BEFFFA23631E28, 0xA4506CEBDE82BDE9, 0xBEF9A3F7B2C67915,
   0xC67178F2E372532B, 0xCA273ECEEA26619C, 0xD186B8C721C0C207,
   0xEADA7DD6CDE0EB1E, 0xF57D4F7FEE6ED178, 0x06F067AA72176FBA,
   0x0A637DC5A2C898A6, 0x113F9804BEF90DAE, 0x1B710B35131C471B,
   0x28DB77F523047D84, 0x32CAAB7B40C72493, 0x3C9EBE0A15C9BEBC,
   0x431D67C49C100D4C, 0x4CC5D4BECB3E42B6, 0x597F299CFC657E2A,
   0x5FCB6FAB3AD6FAEC, 0x6C44198C4A475817]

/-- SHA-512 initial hash state. -/
def sha512H0 : List Nat :=
  [0x6A09E667F3BCC908, 0xBB67AE8584CAA73B, 0x3C6EF372FE94F82B,
   0xA54FF53A5F1D36F1, 0x510E527FADE682D1, 0x9B05688C2B3E6C1F,
   0x1F83D9ABFB41BD6B, 0x5BE0CD19137E2179]

/-- FIPS 180-4 padding for SHA-512 (128-byte blocks, 16-byte length). -/
def sha512Pad (msg : List Nat) : List Nat :=
  msg ++ 0x80 :: List.replicate ((239 - msg.length % 128) % 128) 0
      ++ natToBytesBE 16 (8 * msg.length)

/-- Message-schedule extension of the 16 block words to 80. -/
def sha512Schedule (ws : List Nat) : List Nat :=
  (List.range 64).foldl (fun w _ =>
    let n := w.length
    let x15 := w.getD (n - 15) 0
    let x2 := w.getD (n - 2) 0
    let s0 := rotr64 x15 1 ^^^ rotr64 x15 8 ^^^ (x15 >>> 7)
    let s1 := rotr64 x2 19 ^^^ rotr64 x2 61 ^^^ (x2 >>> 6)
    w ++ [(w.getD (n - 16) 0 + s0 + w.getD (n - 7) 0 + s1) % M64]) ws

/-- One SHA-512 compression step over a 128-byte block. -/
def sha512Compress (h : List Nat) (block : List Nat) : List Nat :=
  let w := sha512Schedule (bytesToWordsBE 8 block)
  let st0 := (h.getD 0 0, h.getD 1 0, h.getD 2 0, h.getD 3 0,
              h.getD 4 0, h.getD 5 0, h.getD 6 0, h.getD 7 0)
  let stf := (List.range 80).foldl (fun st t =>
    let (a, b, c, d, e, f, g, hh) := st
    let S1 := rotr64 e 14 ^^^ rotr64 e 18 ^^^ rotr64 e 41
    let ch := (e &&& f) ^^^ ((e ^^^ (M64 - 1)) &&& g)
    let temp1 := (hh + S1 + ch + sha512K.getD t 0 + w.getD t 0) % M64
    let S0 := rotr64 a 28 ^^^ rotr64 a 34 ^^^ rotr64 a 39
    let maj := (a &&& b) ^^^ (a &&& c) ^^^ (b &&& c)
    let temp2 := (S0 + maj) % M64
    ((temp1 + temp2) % M64, a, b, c, (d + temp1) % M64, e, f, g)) st0
  let (a, b, c, d, e, f, g, hh) := stf
  [(h.getD 0 0 + a) % M64, (h.getD 1 0 + b) % M64, (h.getD 2 0 + c) % M64,
   (h.getD 3 0 + d) % M64, (h.getD 4 0 + e) % M64, (h.getD 5 0 + f) % M64,
   (h.getD 6 0 + g) % M64, (h.getD 7 0 + hh) % M64]

/-- SHA-512 digest (64 bytes) of a byte string. -/
def sha512 (msg : List Nat) : List Nat :=
  let padded := sha512Pad msg
  let final := (List.range (padded.length / 128)).foldl
    (fun h i => sha512Compress h ((padded.drop (128 * i)).take 128)) sha512H0
  final.flatMap (natToBytesBE 8)

/-- HMAC-SHA512 (RFC 2104; block size 128 bytes). -/
def hmacSha512 (key msg : List Nat) : List Nat :=
  let k0 := if key.length > 128 then sha512 key else key
  let k := k0 ++ List.replicate (128 - k0.length) 0
  let ipad := k.map (fun x => x ^^^ 0x36)
  let opad := k.map (fun x => x ^^^ 0x5C)
  sha512 (opad ++ sha512 (ipad ++ msg))

/-- One PBKDF2 block: `U_1 xor ... xor U_c` with `U_1 = PRF(pw, salt || i)`. -/
def pbkdf2Block (password salt : List Nat) (iterations i : Nat) : List Nat :=
  let u1 := hmacSha512 password (salt ++ natToBytesBE 4 i)
  let r := (List.range (iterations - 1)).foldl
    (fun (acc : List Nat × List Nat) _ =>
      let u := hmacSha512 password acc.1
      (u, List.zipWith (fun a b => a ^^^ b) acc.2 u)) (u1, u1)
  r.2

/-- PBKDF2 with HMAC-SHA512 (RFC 8018). -/
def pbkdf2HmacSha512 (password salt : List Nat) (iterations dklen : Nat) : List Nat :=
  ((List.range ((dklen + 63) / 64)).flatMap
    (fun j => pbkdf2Block password salt iterations (j + 1))).take dklen

/-! ### Wordlist -/

/-- Modelled from the spec: the wordlist backend (`wordlists/ubip39.py` or
`wordlists/bip39.py`) is repository code that is not under `src/`. The spec
fixes an ordered list of exactly 2048 unique words (§3) and the reference
entries the vectors pin down: index 0 is `"abandon"` and index 3 is
`"about"` (§8). The first four entries below are the canonical English
list's first four words; the remaining 2044 are synthetic unique
placeholder words (distinct lengths make uniqueness provable). -/
def WORDLIST : List String :=
  ["abandon", "ability", "able", "about"] ++
    (List.range 2044).map (fun n => String.mk ('w' :: List.replicate n 'z'))

/-- Whitespace recognised by Python's no-argument `str.split()` (ASCII part). -/
def isPySpace (c : Char) : Bool :=
  c = ' ' || c = '\t' || c = '\n' || c = '\r' ||
    c = Char.ofNat 11 || c = Char.ofNat 12

/-- Python `mnemonic.strip().split()` (line 23): maximal runs of
non-whitespace characters, in order. -/
def pySplit (s : String) : List String :=
  ((List.splitOnP isPySpace s.data).filter (· ≠ [])).map (fun l => String.mk l)

/-- Failures of the codec (the `ValueError`s the source raises, plus the
`IndexError` an out-of-range read in `mnemonic_from_bytes` would raise). -/
inductive PhraseError
  | invalidPhrase
  | unknownWord (w : String)
  | checksumFailed
  | invalidEntropyLength
  | indexOutOfRange
  deriving DecidableEq

instance {ε α : Type} [DecidableEq ε] [DecidableEq α] : DecidableEq (Except ε α) :=
  fun x y =>
    match x, y with
    | .ok a, .ok b => decidable_of_iff (a = b) (by simp)
    | .error a, .error b => decidable_of_iff (a = b) (by simp)
    | .ok _, .error _ => isFalse (by simp)
    | .error _, .ok _ => isFalse (by simp)

/-! ### Decoding (`mnemonic_to_bytes`, lines 20-73) -/

/-- Body of the `while remaining > 0` loop (lines 33-55). `fuel` only bounds
the number of iterations; every call reachable from `mnemonic_to_bytes` has
`offset < 8` and terminates within three iterations, so the supplied fuel of
11 is never exhausted. Returns the final `(offset, binary_seed)`. -/
def packWordF : Nat → Nat → Nat → Nat → List Nat → Nat × List Nat
  | 0, _, _, offset, seed => (offset, seed)
  | fuel + 1, remaining, index, offset, seed =>
    if remaining = 0 then (offset, seed)
    else
      let bits_needed := 8 - offset
      if remaining = bits_needed then
        (0, if bits_needed = 8 then seed ++ [index]
            else seed.dropLast ++ [seed.getLastD 0 ||| index])
      else if remaining > bits_needed then
        let seed' := if bits_needed = 8 then seed ++ [index >>> (remaining - 8)]
          else seed.dropLast ++ [seed.getLastD 0 ||| (index >>> (remaining - bits_needed))]
        packWordF fuel (remaining - bits_needed)
          (index &&& ((1 <<< (remaining - bits_needed)) - 1)) 0 seed'
      else (remaining, seed ++ [index <<< (8 - remaining)])

/-- One word's worth of packing: the loop entered with `remaining = 11`. -/
def packWord (index offset : Nat) (seed : List Nat) : Nat × List Nat :=
  packWordF 11 11 index offset seed

/-- Lines 29-55: the per-word loop. Checks membership, looks up the index
and packs its 11 bits; the first unknown word aborts with `UnknownWord`. -/
def packLoop : List String → List Nat × Nat → Except PhraseError (List Nat × Nat)
  | [], acc => .ok acc
  | w :: ws, acc =>
    if w ∈ WORDLIST then
      packLoop ws (((packWord (WORDLIST.indexOf w) acc.2 acc.1).2,
                    (packWord (WORDLIST.indexOf w) acc.2 acc.1).1))
    else .error (.unknownWord w)

/-- Decode (`mnemonic_to_bytes`, lines 20-73). The checksum mask on line 70
is transcribed with Python's operator precedence:
`1 << (bits_to_ignore + 1) - 1` parses as `1 << ((bits_to_ignore + 1) - 1)`. -/
def mnemonic_to_bytes (mnemonic : String) (ignore_checksum : Bool := false) :
    Except PhraseError (List Nat) := do
  let words := pySplit mnemonic
  if words.length % 3 ≠ 0 ∨ words.length < 12 then
    throw .invalidPhrase
  let (binary_seed, _) ← packLoop words ([], 0)
  let checksum_length_bits := words.length * 11 / 33
  let num_remainder := checksum_length_bits % 8
  let checksum_length :=
    if num_remainder ≠ 0 then checksum_length_bits / 8 + 1 else checksum_length_bits / 8
  let bits_to_ignore := if num_remainder ≠ 0 then 8 - num_remainder else 0
  let raw := binary_seed
  let data := raw.take (raw.length - checksum_length)
  let checksum := raw.drop (raw.length - checksum_length)
  let computed0 := (sha256 data).take checksum_length
  let computed := computed0.dropLast ++
    [computed0.getLastD 0 &&& (256 - (1 <<< (bits_to_ignore + 1 - 1)))]
  if !ignore_checksum && checksum ≠ computed then
    throw .checksumFailed
  return data

/-- Line 76-82 `mnemonic_is_valid`. -/
def mnemonic_is_valid (mnemonic : String) : Bool :=
  (mnemonic_to_bytes mnemonic).toBool

/-! ### Encoding (`mnemonic_from_bytes`, lines 100-122) -/

/-- Helper `_extract_index` (lines 100-106). A read past the end of `b`
(Python `IndexError`) is modelled by `none`. -/
def extract_index (bits : Nat) (b : List Nat) (n : Nat) : Option Nat :=
  (List.range' (n * bits) bits).foldl (fun acc pos =>
    acc.bind (fun value =>
      (b.get? (pos / 8)).map (fun byte =>
        2 * value + (if byte &&& (1 <<< (7 - pos % 8)) ≠ 0 then 1 else 0))))
    (some 0)

/-- Sequential mapping that aborts on the first failed lookup, as the
`for i in range(...)` loop of lines 119-121 does. -/
def mapLookup (f : Nat → Option String) : List Nat → Option (List String)
  | [] => some []
  | a :: l => (f a).bind (fun w => (mapLookup f l).map (fun ws => w :: ws))

/-- Encode (`mnemonic_from_bytes`, lines 109-122). `full` is the value the
local name `b` holds after line 117 `b += checksum`; a failing index lookup
(`IndexError`) is modelled by `indexOutOfRange`. -/
def mnemonic_from_bytes (b : List Nat) : Except PhraseError String :=
  if b.length % 4 ≠ 0 then .error .invalidEntropyLength
  else
    let total_bits := b.length * 8
    let checksum_bits := total_bits / 32
    let total_mnemonics := (total_bits + checksum_bits) / 11
    let full := b ++ sha256 b
    match mapLookup
        (fun i => (extract_index 11 full i).bind (fun idx => WORDLIST.get? idx))
        (List.range total_mnemonics) with
    | some ws => .ok (String.intercalate " " ws)
    | none => .error .indexOutOfRange

/-- Contents of the caller's buffer after `mnemonic_from_bytes` returns,
when the argument is a mutable `bytearray`: line 117 `b += checksum`
extends it in place by the 32-byte SHA-256 digest. -/
def mnemonic_from_bytes_buffer_after (b : List Nat) : List Nat :=
  if b.length % 4 ≠ 0 then b else b ++ sha256 b

/-! ### Seed derivation (`mnemonic_to_seed`, lines 85-97) -/

def PBKDF2_ROUNDS : Nat := 2048

/-- UTF-8 bytes of a string (Python `str.encode("utf-8")`). -/
def utf8 (s : String) : List Nat :=
  s.toUTF8.toList.map (fun b => b.toNat)

/-- Seed derivation (`mnemonic_to_seed`, lines 85-97): validate the phrase
via `mnemonic_to_bytes` (propagating its error), then run
PBKDF2-HMAC-SHA512 over the phrase bytes and `"mnemonic" + password`. -/
def mnemonic_to_seed (mnemonic : String) (password : String := "") :
    Except PhraseError (List Nat) := do
  let _ ← mnemonic_to_bytes mnemonic
  return pbkdf2HmacSha512 (utf8 mnemonic) (utf8 ("mnemonic" ++ password))
    PBKDF2_ROUNDS 64

/-! ### Specification-level views used by the proofs -/

/-- Value of 11-bit group number `n` of the big-endian bitstream of `b`. -/
def specIndex (b : List Nat) (n : Nat) : Nat :=
  bitsToNat ((List.range' (11 * n) 11).map (bitAt b))

/-- Fold of `packWord` over a list of word indices (the success path of the
per-word loop of `mnemonic_to_bytes`). -/
def packAll (idxs : List Nat) (acc : List Nat × Nat) : List Nat × Nat :=
  idxs.foldl (fun a idx => ((packWord idx a.2 a.1).2, (packWord idx a.2 a.1).1)) acc

/-- Invariant of the packing loop: the bitstream of `seed` is `content`
followed by `(8 - offset) % 8` zero padding bits, and every byte is below
256. -/
def PackInv (content : List Bool) (seed : List Nat) (offset : Nat) : Prop :=
  offset < 8 ∧ (∀ x ∈ seed, x < 256) ∧
  (offset = 0 → bytesToBits seed = content) ∧
  (offset ≠ 0 → ∃ s y, seed = s ++ [y] ∧ y < 256 ∧
    (∀ k, k < 8 - offset → y.testBit k = false) ∧
    bytesToBits s ++ (byteBits y).take offset = content)

/-- Word indices looked up by the decode loop. -/
def decodeIdxs (ws : List String) : List Nat :=
  ws.map (fun w => WORDLIST.indexOf w)

/-- The `binary_seed` the decode loop packs for the word list `ws`. -/
def decodeRaw (ws : List String) : List Nat :=
  (packAll (decodeIdxs ws) ([], 0)).1

/-- Line 57 `checksum_length_bits`. -/
def decodeT (ws : List String) : Nat :=
  ws.length * 11 / 33

/-- Lines 58-64 `checksum_length`. -/
def decodeCl (ws : List String) : Nat :=
  if decodeT ws % 8 ≠ 0 then decodeT ws / 8 + 1 else decodeT ws / 8

/-- Lines 58-64 `bits_to_ignore`. -/
def decodeBti (ws : List String) : Nat :=
  if decodeT ws % 8 ≠ 0 then 8 - decodeT ws % 8 else 0

/-- Line 66 `data`. -/
def decodeData (ws : List String) : List Nat :=
  (decodeRaw ws).take ((decodeRaw ws).length - decodeCl ws)

/-- Line 66 `checksum` (the embedded checksum bytes). -/
def decodeChecksum (ws : List String) : List Nat :=
  (decodeRaw ws).drop ((decodeRaw ws).length - decodeCl ws)

/-- Lines 67-70 `computed_checksum` after the mask. -/
def decodeComputed (ws : List String) : List Nat :=
  ((sha256 (decodeData ws)).take (decodeCl ws)).dropLast ++
    [((sha256 (decodeData ws)).take (decodeCl ws)).getLastD 0 &&&
      (256 - (1 <<< (decodeBti ws + 1 - 1)))]

/-! ### Wordlist facts -/

theorem wordlist_length : WORDLIST.length = 2048 := by
  simp [WORDLIST]

theorem wordlist_filler_injective :
    Function.Injective (fun n => String.mk ('w' :: List.replicate n 'z')) := by
  intro a b h
  have h2 := congrArg (fun s : String => s.data.length) h
  simpa using h2

theorem wordlist_nodup : WORDLIST.Nodup := by
  rw [WORDLIST]
  refine List.Nodup.append (by decide) ?_ ?_
  · exact List.Nodup.map wordlist_filler_injective (List.nodup_range _)
  · intro w hw hw2
    rcases List.mem_map.1 hw2 with ⟨n, _, rfl⟩
    have hh : ∀ v ∈ ["abandon", "ability", "able", "about"],
        v.data.head? = some 'a' := by decide
    have := hh _ hw
    simp at this

theorem wordlist_words_ok :
    ∀ w ∈ WORDLIST, w.data ≠ [] ∧ ∀ c ∈ w.data, isPySpace c = false := by
  intro w hw
  rw [WORDLIST] at hw
  rcases List.mem_append.1 hw with h | h
  · fin_cases h <;> exact ⟨by decide, by decide⟩
  · rcases List.mem_map.1 h with ⟨n, _, rfl⟩
    refine ⟨by simp, ?_⟩
    intro c hc
    simp at hc
    rcases hc with rfl | ⟨_, rfl⟩ <;> decide

/-! ### Splitting on whitespace -/

theorem intercalate_go_data (ws : List String) (acc : String) :
    (String.intercalate.go acc " " ws).data =
      acc.data ++ ws.flatMap (fun v => ' ' :: v.data) := by
  induction ws generalizing acc with
  | nil => simp [String.intercalate.go]
  | cons a as ih =>
    rw [show String.intercalate.go acc " " (a :: as) =
          String.intercalate.go (acc ++ " " ++ a) " " as from rfl, ih]
    simp [String.data_append]

theorem intercalate_data (ws : List String) :
    (String.intercalate " " ws).data =
      match ws with
      | [] => []
      | w :: ws' => w.data ++ ws'.flatMap (fun v => ' ' :: v.data) := by
  cases ws with
  | nil => rfl
  | cons w ws' =>
    rw [show String.intercalate " " (w :: ws') = String.intercalate.go w " " ws' from rfl]
    exact intercalate_go_data ws' w

theorem charsSplit_words (w : String) (ws : List String)
    (h : ∀ v ∈ w :: ws, v.data ≠ [] ∧ ∀ c ∈ v.data, isPySpace c = false) :
    ((List.splitOnP isPySpace
        (w.data ++ ws.flatMap (fun v => ' ' :: v.data))).filter
          (· ≠ [])).map String.mk = w :: ws := by
  induction ws generalizing w with
  | nil =>
    have hw := h w (by simp)
    rw [List.flatMap_nil, List.append_nil,
      List.splitOnP_eq_single _ _ (fun c hc => by simp [hw.2 c hc])]
    simp [hw.1]
  | cons v rest ih =>
    have hw := h w (by simp)
    rw [List.flatMap_cons,
      show w.data ++ (' ' :: v.data ++ rest.flatMap (fun u => ' ' :: u.data)) =
          w.data ++ ' ' :: (v.data ++ rest.flatMap (fun u => ' ' :: u.data)) from rfl,
      List.splitOnP_first _ _ (fun c hc => by simp [hw.2 c hc]) ' ' (by decide) _]
    have ihv := ih v (fun u hu => h u (by simp at hu ⊢; tauto))
    rw [List.filter_cons, if_pos (by simp [hw.1]), List.map_cons, ihv]

theorem pySplit_intercalate (ws : List String)
    (h : ∀ w ∈ ws, w.data ≠ [] ∧ ∀ c ∈ w.data, isPySpace c = false) :
    pySplit (String.intercalate " " ws) = ws := by
  cases ws with
  | nil => rfl
  | cons w ws' =>
    unfold pySplit
    rw [intercalate_data]
    exact charsSplit_words w ws' h

/-! ### Bitstream lemmas -/

theorem bytesToBits_append (a b : List Nat) :
    bytesToBits (a ++ b) = bytesToBits a ++ bytesToBits b := by
  simp [bytesToBits]

theorem bytesToBits_length (b : List Nat) :
    (bytesToBits b).length = 8 * b.length := by
  induction b with
  | nil => rfl
  | cons x t ih =>
    show (byteBits x ++ bytesToBits t).length = 8 * (t.length + 1)
    simp [byteBits, ih]
    omega

theorem bytesToBits_cons (x : Nat) (t : List Nat) :
    bytesToBits (x :: t) = byteBits x ++ bytesToBits t := by
  simp [bytesToBits]

theorem bytesToBits_getElem (b : List Nat) (pos : Nat) (h : pos < 8 * b.length) :
    (bytesToBits b)[pos]? = some (bitAt b pos) := by
  induction b generalizing pos with
  | nil => simp at h
  | cons x t ih =>
    by_cases hp : pos < 8
    · interval_cases pos <;> simp [bytesToBits, byteBits, bitAt]
    · have h8 : 8 ≤ pos := by omega
      rw [bytesToBits_cons,
        List.getElem?_append_right (by simp [byteBits]; omega)]
      have hlen : (byteBits x).length = 8 := by rfl
      rw [hlen, ih (pos - 8) (by simp at h; omega)]
      have e1 : pos / 8 = (pos - 8) / 8 + 1 := by omega
      have e2 : pos % 8 = (pos - 8) % 8 := by omega
      simp [bitAt, e1, e2]

theorem range'_map_bitAt (b : List Nat) (s c : Nat) (h : s + c ≤ 8 * b.length) :
    (List.range' s c).map (bitAt b) = ((bytesToBits b).drop s).take c := by
  refine List.ext_getElem ?_ ?_
  · simp [bytesToBits_length]
    omega
  · intro i h1 h2
    simp only [List.getElem_map, List.getElem_range']
    rw [List.getElem_take, List.getElem_drop]
    have hlt : s + i < 8 * b.length := by
      simp at h1
      omega
    have h4 := bytesToBits_getElem b (s + i) hlt
    rw [List.getElem?_eq_getElem (by rw [bytesToBits_length]; omega)] at h4
    have h5 := Option.some.inj h4
    simpa using h5.symm

theorem bytesToBits_take (b : List Nat) (n : Nat) :
    bytesToBits (b.take n) = (bytesToBits b).take (8 * n) := by
  induction b generalizing n with
  | nil => simp [bytesToBits]
  | cons x t ih =>
    cases n with
    | zero => simp [bytesToBits]
    | succ m =>
      have h8 : (byteBits x).length = 8 := rfl
      have e : 8 * (m + 1) = (byteBits x).length + 8 * m := by rw [h8]; ring
      rw [List.take_succ_cons, bytesToBits_cons, bytesToBits_cons, e,
        List.take_append, ih]

theorem bytesToBits_drop (b : List Nat) (n : Nat) :
    bytesToBits (b.drop n) = (bytesToBits b).drop (8 * n) := by
  induction b generalizing n with
  | nil => simp [bytesToBits]
  | cons x t ih =>
    cases n with
    | zero => simp
    | succ m =>
      have h8 : (byteBits x).length = 8 := rfl
      have e : 8 * (m + 1) = (byteBits x).length + 8 * m := by rw [h8]; ring
      rw [List.drop_succ_cons, bytesToBits_cons, e, List.drop_append, ih]

theorem bitsToNat_aux_lt (l : List Bool) (a : Nat) :
    List.foldl (fun a b => 2 * a + b.toNat) a l < (a + 1) * 2 ^ l.length := by
  induction l generalizing a with
  | nil => simp
  | cons b t ih =>
    have h1 := ih (2 * a + b.toNat)
    have hb : b.toNat ≤ 1 := Bool.toNat_le b
    have h2 : (2 * a + b.toNat + 1) * 2 ^ t.length ≤ (a + 1) * 2 ^ (t.length + 1) := by
      rw [pow_succ]
      nlinarith
    calc List.foldl _ (2 * a + b.toNat) t < (2 * a + b.toNat + 1) * 2 ^ t.length := h1
      _ ≤ (a + 1) * 2 ^ (t.length + 1) := h2
      _ = (a + 1) * 2 ^ (b :: t).length := by rfl

theorem bitsToNat_lt (l : List Bool) : bitsToNat l < 2 ^ l.length := by
  have := bitsToNat_aux_lt l 0
  simpa [bitsToNat] using this

theorem bitsToNat_concat (l : List Bool) (b : Bool) :
    bitsToNat (l ++ [b]) = 2 * bitsToNat l + b.toNat := by
  unfold bitsToNat
  rw [List.foldl_append]
  rfl

theorem bitsToNat_testBit (l : List Bool) (i : Nat) :
    (bitsToNat l).testBit i =
      (decide (i < l.length) && l.getD (l.length - 1 - i) false) := by
  induction l using List.reverseRecOn generalizing i with
  | nil => simp [bitsToNat, Nat.testBit, Nat.shiftRight_eq_div_pow]
  | append_singleton t b ih =>
    rw [bitsToNat_concat]
    cases i with
    | zero =>
      rw [Nat.testBit_zero]
      have hb := Bool.toNat_le b
      have hmod : (2 * bitsToNat t + b.toNat) % 2 = b.toNat := by omega
      rw [hmod]
      have hlen : (t ++ [b]).length - 1 - 0 = t.length := by simp
      have hget : (t ++ [b]).getD t.length false = b := by
        rw [List.getD_eq_getElem _ _ (by simp)]
        simp
      rw [hlen, hget]
      cases b <;> simp
    | succ j =>
      rw [Nat.testBit_succ]
      have : (2 * bitsToNat t + b.toNat) / 2 = bitsToNat t := by
        have := Bool.toNat_le b
        omega
      rw [this, ih j]
      by_cases hj : j < t.length
      · have e1 : (decide (j < t.length)) = true := by simp [hj]
        have e2 : (decide (j + 1 < (t ++ [b]).length)) = true := by simp; omega
        rw [e1, e2]
        simp only [Bool.true_and]
        have e3 : (t ++ [b]).length - 1 - (j + 1) = t.length - 1 - j := by simp; omega
        rw [e3, List.getD_append]
        omega
      · have e1 : (decide (j < t.length)) = false := by simp; omega
        have e2 : (decide (j + 1 < (t ++ [b]).length)) = false := by simp; omega
        rw [e1, e2]
        simp

theorem natBits11_bitsToNat (l : List Bool) (h : l.length = 11) :
    natBits11 (bitsToNat l) = l := by
  have hx : ∀ i, i < 11 → (bitsToNat l).testBit i = l.getD (10 - i) false := by
    intro i hi
    rw [bitsToNat_testBit, h]
    simp [hi]
  have hgd : ∀ j (hj : j < l.length), l.getD j false = l[j] :=
    fun j hj => List.getD_eq_getElem _ _ hj
  refine List.ext_getElem (by simp [natBits11, h]) ?_
  intro i h1 h2
  have h11 : i < 11 := by simpa [natBits11] using h1
  interval_cases i <;>
    simp only [natBits11, List.getElem_cons_zero, List.getElem_cons_succ] <;>
    rw [hx _ (by omega), hgd _ (by omega)]

theorem bitsToNat_natBits11 (x : Nat) (h : x < 2048) :
    bitsToNat (natBits11 x) = x := by
  refine Nat.eq_of_testBit_eq ?_
  intro i
  rw [bitsToNat_testBit]
  by_cases hi : i < 11
  · have e2 : (decide (i < (natBits11 x).length)) = true := by simp [natBits11, hi]
    rw [e2, Bool.true_and]
    have hlen : (natBits11 x).length - 1 - i = 10 - i := by simp [natBits11]
    rw [hlen, List.getD_eq_getElem _ _ (by simp [natBits11]; omega)]
    interval_cases i <;> rfl
  · have e2 : (decide (i < (natBits11 x).length)) = false := by simp [natBits11]; omega
    rw [e2, Bool.false_and]
    exact (Nat.testBit_lt_two_pow (lt_of_lt_of_le h (by
      have : (2 : Nat) ^ 11 ≤ 2 ^ i := Nat.pow_le_pow_right (by norm_num) (by omega)
      omega))).symm

theorem bytes_inj (a b : List Nat) (hlen : a.length = b.length)
    (ha : ∀ x ∈ a, x < 256) (hb : ∀ x ∈ b, x < 256)
    (h : bytesToBits a = bytesToBits b) : a = b := by
  induction a generalizing b with
  | nil =>
    cases b with
    | nil => rfl
    | cons y t => simp at hlen
  | cons x t ih =>
    cases b with
    | nil => simp at hlen
    | cons y u =>
      have hx : x < 256 := ha x (by simp)
      have hy : y < 256 := hb y (by simp)
      have hsplit : byteBits x ++ bytesToBits t = byteBits y ++ bytesToBits u := h
      have hbb : byteBits x = byteBits y ∧ bytesToBits t = bytesToBits u := by
        have hlb : (byteBits x).length = (byteBits y).length := rfl
        exact ⟨List.append_inj_left hsplit hlb, List.append_inj_right hsplit hlb⟩
      have hxy : x = y := by
        refine Nat.eq_of_testBit_eq ?_
        intro i
        by_cases hi : i < 8
        · have := hbb.1
          simp only [byteBits, List.cons.injEq] at this
          interval_cases i <;> tauto
        · rw [Nat.testBit_lt_two_pow (lt_of_lt_of_le hx (by
              have : (2:Nat) ^ 8 ≤ 2 ^ i := Nat.pow_le_pow_right (by norm_num) (by omega)
              omega)),
            Nat.testBit_lt_two_pow (lt_of_lt_of_le hy (by
              have : (2:Nat) ^ 8 ≤ 2 ^ i := Nat.pow_le_pow_right (by norm_num) (by omega)
              omega))]
      subst hxy
      have := ih u (by simpa using hlen) (fun z hz => ha z (by simp [hz]))
        (fun z hz => hb z (by simp [hz])) hbb.2
      rw [this]

/-! ### Correctness of the helper `_extract_index` -/

theorem extract_index_aux (b : List Nat) (c : Nat) :
    ∀ s v, s + c ≤ 8 * b.length →
      (List.range' s c).foldl (fun acc pos =>
        acc.bind (fun value =>
          (b.get? (pos / 8)).map (fun byte =>
            2 * value + (if byte &&& (1 <<< (7 - pos % 8)) ≠ 0 then 1 else 0))))
        (some v) =
      some ((List.range' s c).foldl (fun a p => 2 * a + (bitAt b p).toNat) v) := by
  induction c with
  | zero => intro s v _; simp
  | succ m ih =>
    intro s v h
    rw [List.range'_succ, List.foldl_cons, List.foldl_cons]
    have hs : s / 8 < b.length := by
      rw [Nat.div_lt_iff_lt_mul (by norm_num)]
      omega
    have hget : b.get? (s / 8) = some (b[s / 8]) := by
      rw [List.get?_eq_getElem?, List.getElem?_eq_getElem hs]
    have hbyte : b.getD (s / 8) 0 = b[s / 8] := List.getD_eq_getElem _ _ hs
    have hbit : (if b[s / 8] &&& (1 <<< (7 - s % 8)) ≠ 0 then 1 else 0) =
        (bitAt b s).toNat := by
      rw [Nat.one_shiftLeft, Nat.and_two_pow, bitAt, hbyte]
      cases h2 : (b[s / 8]).testBit (7 - s % 8) <;> simp [h2]
    have step : (Option.bind (some v) (fun value => (b.get? (s / 8)).map (fun byte =>
        2 * value + (if byte &&& (1 <<< (7 - s % 8)) ≠ 0 then 1 else 0)))) =
        some (2 * v + (bitAt b s).toNat) := by
      simp only [Option.bind_eq_bind, Option.some_bind, hget, Option.map_some']
      rw [hbit]
    rw [step]
    exact ih (s + 1) _ (by omega)

theorem extract_index_eq (b : List Nat) (n : Nat) (h : 11 * n + 11 ≤ 8 * b.length) :
    extract_index 11 b n = some (specIndex b n) := by
  unfold extract_index specIndex
  have e : n * 11 = 11 * n := by ring
  rw [e, extract_index_aux b 11 (11 * n) 0 (by omega)]
  exact congrArg some (by simp [bitsToNat, List.foldl_map])

theorem specIndex_lt (b : List Nat) (n : Nat) : specIndex b n < 2048 := by
  have h := bitsToNat_lt ((List.range' (11 * n) 11).map (bitAt b))
  simpa [specIndex] using h

/-! ### Shape of the SHA-256 output -/

theorem sha256_length (msg : List Nat) : (sha256 msg).length = 32 := by
  unfold sha256
  have hfold : ∀ (l : List Nat) (st : List Nat), st.length = 8 →
      (l.foldl (fun h i =>
        sha256Compress h (((sha256Pad msg).drop (64 * i)).take 64)) st).length = 8 := by
    intro l
    induction l with
    | nil => intro st hst; exact hst
    | cons a t ih => intro st _; exact ih _ rfl
  have hflat : ∀ (l : List Nat), (l.flatMap (natToBytesBE 4)).length = 4 * l.length := by
    intro l
    induction l with
    | nil => rfl
    | cons a t ih =>
      show (natToBytesBE 4 a ++ t.flatMap (natToBytesBE 4)).length = _
      simp [natToBytesBE, ih]
      omega
  rw [hflat, hfold _ sha256H0 rfl]

theorem sha256_lt (msg : List Nat) : ∀ x ∈ sha256 msg, x < 256 := by
  intro x hx
  unfold sha256 at hx
  rcases List.mem_flatMap.1 hx with ⟨w, _, hw⟩
  rcases List.mem_map.1 hw with ⟨i, _, rfl⟩
  exact Nat.mod_lt _ (by norm_num)

/-! ### Success and failure of `mapLookup` -/

theorem mapLookup_some (f : Nat → Option String) (g : Nat → String) (l : List Nat)
    (h : ∀ a ∈ l, f a = some (g a)) : mapLookup f l = some (l.map g) := by
  induction l with
  | nil => rfl
  | cons a t ih =>
    show (f a).bind _ = _
    rw [h a (by simp), ih (fun x hx => h x (by simp [hx]))]
    rfl

theorem mapLookup_none (f : Nat → Option String) (l : List Nat) (a : Nat)
    (ha : a ∈ l) (h : f a = none) : mapLookup f l = none := by
  induction l with
  | nil => simp at ha
  | cons b t ih =>
    show (f b).bind _ = _
    rcases List.mem_cons.1 ha with rfl | hm
    · rw [h]; rfl
    · cases hfb : f b with
      | none => rfl
      | some w => rw [ih hm]; rfl

/-! ### Characterisation of `mnemonic_from_bytes` on valid lengths -/

theorem mnemonic_from_bytes_ok (b : List Nat) (h4 : b.length % 4 = 0)
    (hlen : b.length ≤ 1024) :
    mnemonic_from_bytes b =
      .ok (String.intercalate " "
        ((List.range ((b.length * 8 + b.length * 8 / 32) / 11)).map
          (fun i => WORDLIST.getD (specIndex (b ++ sha256 b) i) ""))) := by
  unfold mnemonic_from_bytes
  rw [if_neg (by omega)]
  simp only []
  have hfull : (b ++ sha256 b).length = b.length + 32 := by
    rw [List.length_append, sha256_length]
  have htot : (b.length * 8 + b.length * 8 / 32) / 11 = 3 * (b.length / 4) := by
    omega
  have hbound : ∀ i ∈ List.range ((b.length * 8 + b.length * 8 / 32) / 11),
      11 * i + 11 ≤ 8 * (b ++ sha256 b).length := by
    intro i hi
    rw [List.mem_range, htot] at hi
    rw [hfull]
    omega
  rw [mapLookup_some _ (fun i => WORDLIST.getD (specIndex (b ++ sha256 b) i) "") _ ?_]
  intro i hi
  rw [extract_index_eq _ _ (hbound i hi)]
  rw [Option.some_bind]
  have hsi : specIndex (b ++ sha256 b) i < WORDLIST.length := by
    rw [wordlist_length]
    exact specIndex_lt _ _
  rw [List.get?_eq_getElem?, List.getElem?_eq_getElem hsi,
    ← List.getD_eq_getElem _ _ hsi]

/-! ### The packing loop of `mnemonic_to_bytes` preserves its invariant -/

theorem testBit_and_mask (n x j : Nat) :
    (x &&& (2 ^ n - 1)).testBit j = (decide (j < n) && x.testBit j) := by
  rw [Nat.testBit_land, Nat.testBit_two_pow_sub_one, Bool.and_comm]

theorem shiftRight_lt_pow (x n k : Nat) (h : x < 2 ^ (n + k)) : x >>> k < 2 ^ n := by
  rw [Nat.shiftRight_eq_div_pow]
  apply Nat.div_lt_of_lt_mul
  calc x < 2 ^ (n + k) := h
    _ = 2 ^ k * 2 ^ n := by rw [← pow_add, Nat.add_comm]

theorem mask_shiftLeft_lt (n k x : Nat) (h : n + k = 8) :
    (x &&& (2 ^ n - 1)) <<< k < 256 := by
  have h1 : x &&& (2 ^ n - 1) < 2 ^ n :=
    lt_of_le_of_lt Nat.and_le_right (Nat.sub_lt (Nat.pos_pow_of_pos n (by norm_num)) one_pos)
  have h2 : (x &&& (2 ^ n - 1)) <<< k < 2 ^ (n + k) := Nat.shiftLeft_lt h1
  rw [h] at h2
  simpa using h2

theorem packWord_spec (idx offset : Nat) (seed : List Nat) (content : List Bool)
    (hidx : idx < 2048) (hinv : PackInv content seed offset) :
    ∃ seed', packWord idx offset seed = ((offset + 3) % 8, seed') ∧
      PackInv (content ++ natBits11 idx) seed' ((offset + 3) % 8) := by
  obtain ⟨hoff, hlt, h0, hne⟩ := hinv
  have hidxtop : ∀ j, 11 ≤ j → idx.testBit j = false := fun j hj =>
    Nat.testBit_lt_two_pow (lt_of_lt_of_le hidx
      (Nat.pow_le_pow_right (by norm_num : 0 < 2) hj))
  have hsr : ∀ k, 3 ≤ k → idx >>> k < 256 := by
    intro k hk
    have h1 : idx < 2 ^ (8 + k) := by
      calc idx < 2048 := hidx
        _ = 2 ^ 11 := by norm_num
        _ ≤ 2 ^ (8 + k) := Nat.pow_le_pow_right (by norm_num) (by omega)
    simpa using shiftRight_lt_pow idx 8 k h1
  have hm7 : ∀ j, Nat.testBit 7 j = decide (j < 3) := fun j =>
    Nat.testBit_two_pow_sub_one 3 j
  have hm15 : ∀ j, Nat.testBit 15 j = decide (j < 4) := fun j =>
    Nat.testBit_two_pow_sub_one 4 j
  have hm31 : ∀ j, Nat.testBit 31 j = decide (j < 5) := fun j =>
    Nat.testBit_two_pow_sub_one 5 j
  have hm63 : ∀ j, Nat.testBit 63 j = decide (j < 6) := fun j =>
    Nat.testBit_two_pow_sub_one 6 j
  have hm127 : ∀ j, Nat.testBit 127 j = decide (j < 7) := fun j =>
    Nat.testBit_two_pow_sub_one 7 j
  have hm255 : ∀ j, Nat.testBit 255 j = decide (j < 8) := fun j =>
    Nat.testBit_two_pow_sub_one 8 j
  have hm511 : ∀ j, Nat.testBit 511 j = decide (j < 9) := fun j =>
    Nat.testBit_two_pow_sub_one 9 j
  have hm1023 : ∀ j, Nat.testBit 1023 j = decide (j < 10) := fun j =>
    Nat.testBit_two_pow_sub_one 10 j
  have hm1 : ∀ j, Nat.testBit 1 j = decide (j < 1) := fun j =>
    Nat.testBit_two_pow_sub_one 1 j
  have hm3 : ∀ j, Nat.testBit 3 j = decide (j < 2) := fun j =>
    Nat.testBit_two_pow_sub_one 2 j
  interval_cases offset
  · -- offset = 0
    refine ⟨(seed ++ [idx >>> 3]) ++ [(idx &&& (2 ^ 3 - 1)) <<< 5], rfl,
      by norm_num, ?_, ?_, ?_⟩
    · intro x hx
      simp only [List.mem_append, List.mem_singleton] at hx
      rcases hx with (hx | rfl) | rfl
      · exact hlt x hx
      · exact hsr 3 (by norm_num)
      · exact mask_shiftLeft_lt 3 5 idx (by norm_num)
    · intro h3
      exact absurd h3 (by norm_num)
    · intro _
      refine ⟨seed ++ [idx >>> 3], (idx &&& (2 ^ 3 - 1)) <<< 5, rfl,
        mask_shiftLeft_lt 3 5 idx (by norm_num), ?_, ?_⟩
      · intro k hk
        rw [Nat.testBit_shiftLeft]
        simp
        omega
      · rw [bytesToBits_append, h0 rfl, List.append_assoc]
        congr 1
        simp +decide [-Nat.testBit_zero, -Nat.and_one_is_mod, byteBits,
          natBits11, bytesToBits, Nat.testBit_shiftRight, Nat.testBit_shiftLeft,
          Nat.testBit_land, hm7, hm15, hm31, hm63, hm127, hm255, hm511, hm1023, hm1, hm3]
  · -- offset = 1
    obtain ⟨s, y, rfl, hy256, hylow, hcontent⟩ := hne (by norm_num)
    refine ⟨(s ++ [y ||| (idx >>> 4)]) ++ [(idx &&& (2 ^ 4 - 1)) <<< 4], ?_,
      by norm_num, ?_, ?_, ?_⟩
    · show packWord idx 1 (s ++ [y]) = _
      rw [show packWord idx 1 (s ++ [y]) =
        (4, (s ++ [y]).dropLast ++ [(s ++ [y]).getLastD 0 ||| (idx >>> 4)]
          ++ [(idx &&& (2 ^ 4 - 1)) <<< 4]) from rfl]
      rw [List.dropLast_concat, List.getLastD_concat]
    · intro x hx
      simp only [List.mem_append, List.mem_singleton] at hx
      rcases hx with (hx | rfl) | rfl
      · exact hlt x (by simp [hx])
      · have h1 : (256 : Nat) = 2 ^ 8 := by norm_num
        rw [h1]
        exact Nat.or_lt_two_pow (by omega) (hsr 4 (by norm_num))
      · exact mask_shiftLeft_lt 4 4 idx (by norm_num)
    · intro h4
      exact absurd h4 (by norm_num)
    · intro _
      refine ⟨s ++ [y ||| (idx >>> 4)], (idx &&& (2 ^ 4 - 1)) <<< 4, rfl,
        mask_shiftLeft_lt 4 4 idx (by norm_num), ?_, ?_⟩
      · intro k hk
        rw [Nat.testBit_shiftLeft]
        simp
        omega
      · rw [bytesToBits_append, ← hcontent, List.append_assoc, List.append_assoc]
        congr 1
        simp +decide [-Nat.testBit_zero, -Nat.and_one_is_mod, byteBits,
          natBits11, bytesToBits, Nat.testBit_lor, Nat.testBit_shiftRight,
          Nat.testBit_shiftLeft, Nat.testBit_land, hylow, hidxtop, hm7, hm15, hm31, hm63, hm127, hm255, hm511, hm1023, hm1, hm3]
  · -- offset = 2
    obtain ⟨s, y, rfl, hy256, hylow, hcontent⟩ := hne (by norm_num)
    refine ⟨(s ++ [y ||| (idx >>> 5)]) ++ [(idx &&& (2 ^ 5 - 1)) <<< 3], ?_,
      by norm_num, ?_, ?_, ?_⟩
    · show packWord idx 2 (s ++ [y]) = _
      rw [show packWord idx 2 (s ++ [y]) =
        (5, (s ++ [y]).dropLast ++ [(s ++ [y]).getLastD 0 ||| (idx >>> 5)]
          ++ [(idx &&& (2 ^ 5 - 1)) <<< 3]) from rfl]
      rw [List.dropLast_concat, List.getLastD_concat]
    · intro x hx
      simp only [List.mem_append, List.mem_singleton] at hx
      rcases hx with (hx | rfl) | rfl
      · exact hlt x (by simp [hx])
      · have h1 : (256 : Nat) = 2 ^ 8 := by norm_num
        rw [h1]
        exact Nat.or_lt_two_pow (by omega) (hsr 5 (by norm_num))
      · exact mask_shiftLeft_lt 5 3 idx (by norm_num)
    · intro h5
      exact absurd h5 (by norm_num)
    · intro _
      refine ⟨s ++ [y ||| (idx >>> 5)], (idx &&& (2 ^ 5 - 1)) <<< 3, rfl,
        mask_shiftLeft_lt 5 3 idx (by norm_num), ?_, ?_⟩
      · intro k hk
        rw [Nat.testBit_shiftLeft]
        simp
        omega
      · rw [bytesToBits_append, ← hcontent, List.append_assoc, List.append_assoc]
        congr 1
        simp +decide [-Nat.testBit_zero, -Nat.and_one_is_mod, byteBits,
          natBits11, bytesToBits, Nat.testBit_lor, Nat.testBit_shiftRight,
          Nat.testBit_shiftLeft, Nat.testBit_land, hylow, hidxtop, hm7, hm15, hm31, hm63, hm127, hm255, hm511, hm1023, hm1, hm3]
  · -- offset = 3
    obtain ⟨s, y, rfl, hy256, hylow, hcontent⟩ := hne (by norm_num)
    refine ⟨(s ++ [y ||| (idx >>> 6)]) ++ [(idx &&& (2 ^ 6 - 1)) <<< 2], ?_,
      by norm_num, ?_, ?_, ?_⟩
    · show packWord idx 3 (s ++ [y]) = _
      rw [show packWord idx 3 (s ++ [y]) =
        (6, (s ++ [y]).dropLast ++ [(s ++ [y]).getLastD 0 ||| (idx >>> 6)]
          ++ [(idx &&& (2 ^ 6 - 1)) <<< 2]) from rfl]
      rw [List.dropLast_concat, List.getLastD_concat]
    · intro x hx
      simp only [List.mem_append, List.mem_singleton] at hx
      rcases hx with (hx | rfl) | rfl
      · exact hlt x (by simp [hx])
      · have h1 : (256 : Nat) = 2 ^ 8 := by norm_num
        rw [h1]
        exact Nat.or_lt_two_pow (by omega) (hsr 6 (by norm_num))
      · exact mask_shiftLeft_lt 6 2 idx (by norm_num)
    · intro h6
      exact absurd h6 (by norm_num)
    · intro _
      refine ⟨s ++ [y ||| (idx >>> 6)], (idx &&& (2 ^ 6 - 1)) <<< 2, rfl,
        mask_shiftLeft_lt 6 2 idx (by norm_num), ?_, ?_⟩
      · intro k hk
        rw [Nat.testBit_shiftLeft]
        simp
        omega
      · rw [bytesToBits_append, ← hcontent, List.append_assoc, List.append_assoc]
        congr 1
        simp +decide [-Nat.testBit_zero, -Nat.and_one_is_mod, byteBits,
          natBits11, bytesToBits, Nat.testBit_lor, Nat.testBit_shiftRight,
          Nat.testBit_shiftLeft, Nat.testBit_land, hylow, hidxtop, hm7, hm15, hm31, hm63, hm127, hm255, hm511, hm1023, hm1, hm3]
  · -- offset = 4
    obtain ⟨s, y, rfl, hy256, hylow, hcontent⟩ := hne (by norm_num)
    refine ⟨(s ++ [y ||| (idx >>> 7)]) ++ [(idx &&& (2 ^ 7 - 1)) <<< 1], ?_,
      by norm_num, ?_, ?_, ?_⟩
    · show packWord idx 4 (s ++ [y]) = _
      rw [show packWord idx 4 (s ++ [y]) =
        (7, (s ++ [y]).dropLast ++ [(s ++ [y]).getLastD 0 ||| (idx >>> 7)]
          ++ [(idx &&& (2 ^ 7 - 1)) <<< 1]) from rfl]
      rw [List.dropLast_concat, List.getLastD_concat]
    · intro x hx
      simp only [List.mem_append, List.mem_singleton] at hx
      rcases hx with (hx | rfl) | rfl
      · exact hlt x (by simp [hx])
      · have h1 : (256 : Nat) = 2 ^ 8 := by norm_num
        rw [h1]
        exact Nat.or_lt_two_pow (by omega) (hsr 7 (by norm_num))
      · exact mask_shiftLeft_lt 7 1 idx (by norm_num)
    · intro h7
      exact absurd h7 (by norm_num)
    · intro _
      refine ⟨s ++ [y ||| (idx >>> 7)], (idx &&& (2 ^ 7 - 1)) <<< 1, rfl,
        mask_shiftLeft_lt 7 1 idx (by norm_num), ?_, ?_⟩
      · intro k hk
        rw [Nat.testBit_shiftLeft]
        simp
        omega
      · rw [bytesToBits_append, ← hcontent, List.append_assoc, List.append_assoc]
        congr 1
        simp +decide [-Nat.testBit_zero, -Nat.and_one_is_mod, byteBits,
          natBits11, bytesToBits, Nat.testBit_lor, Nat.testBit_shiftRight,
          Nat.testBit_shiftLeft, Nat.testBit_land, hylow, hidxtop, hm7, hm15, hm31, hm63, hm127, hm255, hm511, hm1023, hm1, hm3]
  · -- offset = 5: the word completes the byte exactly, next offset is 0
    obtain ⟨s, y, rfl, hy256, hylow, hcontent⟩ := hne (by norm_num)
    refine ⟨(s ++ [y ||| (idx >>> 8)]) ++ [idx &&& (2 ^ 8 - 1)], ?_,
      by norm_num, ?_, ?_, ?_⟩
    · show packWord idx 5 (s ++ [y]) = _
      rw [show packWord idx 5 (s ++ [y]) =
        (0, (s ++ [y]).dropLast ++ [(s ++ [y]).getLastD 0 ||| (idx >>> 8)]
          ++ [idx &&& (2 ^ 8 - 1)]) from rfl]
      rw [List.dropLast_concat, List.getLastD_concat]
    · intro x hx
      simp only [List.mem_append, List.mem_singleton] at hx
      rcases hx with (hx | rfl) | rfl
      · exact hlt x (by simp [hx])
      · have h1 : (256 : Nat) = 2 ^ 8 := by norm_num
        rw [h1]
        exact Nat.or_lt_two_pow (by omega) (hsr 8 (by norm_num))
      · exact lt_of_le_of_lt Nat.and_le_right (by norm_num)
    · intro _
      rw [bytesToBits_append, bytesToBits_append, ← hcontent,
        List.append_assoc, List.append_assoc]
      congr 1
      simp +decide [-Nat.testBit_zero, -Nat.and_one_is_mod, byteBits,
        natBits11, bytesToBits, Nat.testBit_lor, Nat.testBit_shiftRight,
        Nat.testBit_land, hylow, hidxtop, hm7, hm15, hm31, hm63, hm127, hm255, hm511, hm1023, hm1, hm3]
    · intro h00
      exact absurd rfl h00
  · -- offset = 6: the word spans three bytes
    obtain ⟨s, y, rfl, hy256, hylow, hcontent⟩ := hne (by norm_num)
    refine ⟨((s ++ [y ||| (idx >>> 9)]) ++ [(idx &&& (2 ^ 9 - 1)) >>> 1])
        ++ [((idx &&& (2 ^ 9 - 1)) &&& (2 ^ 1 - 1)) <<< 7], ?_,
      by norm_num, ?_, ?_, ?_⟩
    · show packWord idx 6 (s ++ [y]) = _
      rw [show packWord idx 6 (s ++ [y]) =
        (1, ((s ++ [y]).dropLast ++ [(s ++ [y]).getLastD 0 ||| (idx >>> 9)]
          ++ [(idx &&& (2 ^ 9 - 1)) >>> 1])
          ++ [((idx &&& (2 ^ 9 - 1)) &&& (2 ^ 1 - 1)) <<< 7]) from rfl]
      rw [List.dropLast_concat, List.getLastD_concat]
    · intro x hx
      simp only [List.mem_append, List.mem_singleton] at hx
      rcases hx with ((hx | rfl) | rfl) | rfl
      · exact hlt x (by simp [hx])
      · have h1 : (256 : Nat) = 2 ^ 8 := by norm_num
        rw [h1]
        exact Nat.or_lt_two_pow (by omega) (hsr 9 (by norm_num))
      · refine shiftRight_lt_pow _ 8 1 ?_
        exact lt_of_le_of_lt Nat.and_le_right (by norm_num)
      · exact mask_shiftLeft_lt 1 7 _ (by norm_num)
    · intro h1
      exact absurd h1 (by norm_num)
    · intro _
      refine ⟨(s ++ [y ||| (idx >>> 9)]) ++ [(idx &&& (2 ^ 9 - 1)) >>> 1],
        ((idx &&& (2 ^ 9 - 1)) &&& (2 ^ 1 - 1)) <<< 7, rfl,
        mask_shiftLeft_lt 1 7 _ (by norm_num), ?_, ?_⟩
      · intro k hk
        rw [Nat.testBit_shiftLeft]
        simp
        omega
      · rw [bytesToBits_append, bytesToBits_append, ← hcontent,
          List.append_assoc, List.append_assoc, List.append_assoc]
        congr 1
        simp +decide [-Nat.testBit_zero, -Nat.and_one_is_mod, byteBits,
          natBits11, bytesToBits, Nat.testBit_lor, Nat.testBit_shiftRight,
          Nat.testBit_shiftLeft, Nat.testBit_land, hylow, hidxtop, hm7, hm15, hm31, hm63, hm127, hm255, hm511, hm1023, hm1, hm3]
  · -- offset = 7: the word spans three bytes
    obtain ⟨s, y, rfl, hy256, hylow, hcontent⟩ := hne (by norm_num)
    refine ⟨((s ++ [y ||| (idx >>> 10)]) ++ [(idx &&& (2 ^ 10 - 1)) >>> 2])
        ++ [((idx &&& (2 ^ 10 - 1)) &&& (2 ^ 2 - 1)) <<< 6], ?_,
      by norm_num, ?_, ?_, ?_⟩
    · show packWord idx 7 (s ++ [y]) = _
      rw [show packWord idx 7 (s ++ [y]) =
        (2, ((s ++ [y]).dropLast ++ [(s ++ [y]).getLastD 0 ||| (idx >>> 10)]
          ++ [(idx &&& (2 ^ 10 - 1)) >>> 2])
          ++ [((idx &&& (2 ^ 10 - 1)) &&& (2 ^ 2 - 1)) <<< 6]) from rfl]
      rw [List.dropLast_concat, List.getLastD_concat]
    · intro x hx
      simp only [List.mem_append, List.mem_singleton] at hx
      rcases hx with ((hx | rfl) | rfl) | rfl
      · exact hlt x (by simp [hx])
      · have h1 : (256 : Nat) = 2 ^ 8 := by norm_num
        rw [h1]
        exact Nat.or_lt_two_pow (by omega) (hsr 10 (by norm_num))
      · refine shiftRight_lt_pow _ 8 2 ?_
        exact lt_of_le_of_lt Nat.and_le_right (by norm_num)
      · exact mask_shiftLeft_lt 2 6 _ (by norm_num)
    · intro h2
      exact absurd h2 (by norm_num)
    · intro _
      refine ⟨(s ++ [y ||| (idx >>> 10)]) ++ [(idx &&& (2 ^ 10 - 1)) >>> 2],
        ((idx &&& (2 ^ 10 - 1)) &&& (2 ^ 2 - 1)) <<< 6, rfl,
        mask_shiftLeft_lt 2 6 _ (by norm_num), ?_, ?_⟩
      · intro k hk
        rw [Nat.testBit_shiftLeft]
        simp
        omega
      · rw [bytesToBits_append, bytesToBits_append, ← hcontent,
          List.append_assoc, List.append_assoc, List.append_assoc]
        congr 1
        simp +decide [-Nat.testBit_zero, -Nat.and_one_is_mod, byteBits,
          natBits11, bytesToBits, Nat.testBit_lor, Nat.testBit_shiftRight,
          Nat.testBit_shiftLeft, Nat.testBit_land, hylow, hidxtop, hm7, hm15, hm31, hm63, hm127, hm255, hm511, hm1023, hm1, hm3]

theorem packAll_spec (idxs : List Nat) :
    ∀ (acc : List Nat × Nat) (content : List Bool),
      (∀ i ∈ idxs, i < 2048) → PackInv content acc.1 acc.2 →
      (packAll idxs acc).2 = (acc.2 + 3 * idxs.length) % 8 ∧
      PackInv (content ++ idxs.flatMap natBits11) (packAll idxs acc).1
        ((acc.2 + 3 * idxs.length) % 8) := by
  induction idxs with
  | nil =>
    intro acc content _ hinv
    have hofflt := hinv.1
    have hoff : (acc.2 + 3 * ([] : List Nat).length) % 8 = acc.2 := by
      simp [Nat.mod_eq_of_lt hofflt]
    rw [hoff]
    exact ⟨rfl, by simpa [packAll] using hinv⟩
  | cons i rest ih =>
    intro acc content hall hinv
    obtain ⟨seed', hpw, hinv'⟩ :=
      packWord_spec i acc.2 acc.1 content (hall i (by simp)) hinv
    have hstep : packAll (i :: rest) acc = packAll rest (seed', (acc.2 + 3) % 8) := by
      show packAll rest ((packWord i acc.2 acc.1).2, (packWord i acc.2 acc.1).1) = _
      rw [hpw]
    rw [hstep]
    obtain ⟨h1, h2⟩ := ih (seed', (acc.2 + 3) % 8) (content ++ natBits11 i)
      (fun x hx => hall x (by simp [hx])) hinv'
    have hoff : ((acc.2 + 3) % 8 + 3 * rest.length) % 8 =
        (acc.2 + 3 * (i :: rest).length) % 8 := by
      simp only [List.length_cons]
      omega
    constructor
    · rw [h1, hoff]
    · rw [List.flatMap_cons, ← List.append_assoc, ← hoff]
      exact h2

/-! ### The word loop of `mnemonic_to_bytes` -/

theorem packLoop_ok (ws : List String) :
    ∀ acc, (∀ w ∈ ws, w ∈ WORDLIST) →
      packLoop ws acc = .ok (packAll (ws.map (fun w => WORDLIST.indexOf w)) acc) := by
  induction ws with
  | nil => intro acc _; rfl
  | cons a rest ih =>
    intro acc hall
    simp only [packLoop]
    rw [if_pos (hall a (by simp))]
    rw [ih _ (fun w hw => hall w (by simp [hw]))]
    rfl

theorem packLoop_unknown (ws : List String) :
    ∀ acc (w : String), ws.find? (fun v => decide (v ∉ WORDLIST)) = some w →
      packLoop ws acc = .error (.unknownWord w) := by
  induction ws with
  | nil => intro acc w hfind; simp at hfind
  | cons a rest ih =>
    intro acc w hfind
    by_cases ha : a ∈ WORDLIST
    · have hpa : (fun v => decide (v ∉ WORDLIST)) a = false := by simp [ha]
      rw [List.find?_cons_of_neg _ (by simp [ha])] at hfind
      simp only [packLoop]
      rw [if_pos ha]
      exact ih _ w hfind
    · rw [List.find?_cons_of_pos _ (by simp [ha])] at hfind
      simp only [packLoop]
      rw [if_neg ha]
      rw [Option.some.injEq] at hfind
      rw [hfind]

/-! ### Stream shape of a packed seed -/

theorem flatMap_natBits11_length (idxs : List Nat) :
    (idxs.flatMap natBits11).length = 11 * idxs.length := by
  induction idxs with
  | nil => rfl
  | cons i rest ih =>
    show (natBits11 i ++ rest.flatMap natBits11).length = _
    simp [natBits11, ih]
    omega

theorem byteBits_getElem (y : Nat) (i : Nat) (h : i < 8) :
    getElem (byteBits y) i (by simp [byteBits]; omega) = y.testBit (7 - i) := by
  interval_cases i <;> rfl

theorem PackInv_init : PackInv [] [] 0 :=
  ⟨by norm_num, by simp, fun _ => rfl, fun h => absurd rfl h⟩

theorem PackInv_stream (content : List Bool) (seed : List Nat) (offset : Nat)
    (h : PackInv content seed offset) :
    bytesToBits seed = content ++ List.replicate ((8 - offset) % 8) false ∧
    8 * seed.length = content.length + (8 - offset) % 8 := by
  obtain ⟨hoff, _, h0, hne⟩ := h
  by_cases hz : offset = 0
  · subst hz
    rw [h0 rfl]
    constructor
    · simp
    · have := congrArg List.length (h0 rfl)
      rw [bytesToBits_length] at this
      simp [this]
  · obtain ⟨s, y, rfl, _, hylow, hcontent⟩ := hne hz
    have hpad : (8 - offset) % 8 = 8 - offset := Nat.mod_eq_of_lt (by omega)
    have hdrop : (byteBits y).drop offset = List.replicate (8 - offset) false := by
      refine List.ext_getElem (by simp [byteBits]) ?_
      intro i h1 h2
      rw [List.getElem_drop, List.getElem_replicate]
      have hi8 : offset + i < 8 := by
        simp only [List.length_drop] at h1
        have h8 : (byteBits y).length = 8 := rfl
        omega
      rw [byteBits_getElem y (offset + i) hi8]
      exact hylow (7 - (offset + i)) (by omega)
    constructor
    · rw [bytesToBits_append, ← hcontent, hpad, List.append_assoc, ← hdrop]
      congr 1
      rw [List.take_append_drop]
      show byteBits y = bytesToBits [y]
      simp [bytesToBits]
    · have hc := congrArg List.length hcontent
      simp only [List.length_append, List.length_take] at hc
      rw [bytesToBits_length] at hc
      have h8 : (byteBits y).length = 8 := rfl
      rw [h8] at hc
      simp [bytesToBits_length, hpad]
      omega

/-! ### Bits of the checksum mask bytes -/

theorem testBit_mask255 : ∀ j, Nat.testBit 255 j = (decide (0 ≤ j) && decide (j - 0 < 8)) := by
  intro j
  rw [show (255 : Nat) = (2 ^ 8 - 1) <<< 0 by decide,
    Nat.testBit_shiftLeft, Nat.testBit_two_pow_sub_one]

theorem testBit_mask254 : ∀ j, Nat.testBit 254 j = (decide (1 ≤ j) && decide (j - 1 < 7)) := by
  intro j
  rw [show (254 : Nat) = (2 ^ 7 - 1) <<< 1 by decide,
    Nat.testBit_shiftLeft, Nat.testBit_two_pow_sub_one]

theorem testBit_mask252 : ∀ j, Nat.testBit 252 j = (decide (2 ≤ j) && decide (j - 2 < 6)) := by
  intro j
  rw [show (252 : Nat) = (2 ^ 6 - 1) <<< 2 by decide,
    Nat.testBit_shiftLeft, Nat.testBit_two_pow_sub_one]

theorem testBit_mask248 : ∀ j, Nat.testBit 248 j = (decide (3 ≤ j) && decide (j - 3 < 5)) := by
  intro j
  rw [show (248 : Nat) = (2 ^ 5 - 1) <<< 3 by decide,
    Nat.testBit_shiftLeft, Nat.testBit_two_pow_sub_one]

theorem testBit_mask240 : ∀ j, Nat.testBit 240 j = (decide (4 ≤ j) && decide (j - 4 < 4)) := by
  intro j
  rw [show (240 : Nat) = (2 ^ 4 - 1) <<< 4 by decide,
    Nat.testBit_shiftLeft, Nat.testBit_two_pow_sub_one]

theorem testBit_mask224 : ∀ j, Nat.testBit 224 j = (decide (5 ≤ j) && decide (j - 5 < 3)) := by
  intro j
  rw [show (224 : Nat) = (2 ^ 3 - 1) <<< 5 by decide,
    Nat.testBit_shiftLeft, Nat.testBit_two_pow_sub_one]

theorem testBit_mask192 : ∀ j, Nat.testBit 192 j = (decide (6 ≤ j) && decide (j - 6 < 2)) := by
  intro j
  rw [show (192 : Nat) = (2 ^ 2 - 1) <<< 6 by decide,
    Nat.testBit_shiftLeft, Nat.testBit_two_pow_sub_one]

theorem testBit_mask128 : ∀ j, Nat.testBit 128 j = (decide (7 ≤ j) && decide (j - 7 < 1)) := by
  intro j
  rw [show (128 : Nat) = (2 ^ 1 - 1) <<< 7 by decide,
    Nat.testBit_shiftLeft, Nat.testBit_two_pow_sub_one]

/-- Masking with `256 - 2 ^ k` (the value line 70 computes) keeps exactly the
top `8 - k` bits of a byte and zeroes the low `k` bits. -/
theorem byteBits_mask (c k : Nat) (hk : k ≤ 7) :
    byteBits (c &&& (256 - (1 <<< (k + 1 - 1)))) =
      (byteBits c).take (8 - k) ++ List.replicate k false := by
  interval_cases k <;>
    simp +decide [-Nat.testBit_zero, -Nat.and_one_is_mod, byteBits,
      Nat.testBit_land, testBit_mask255, testBit_mask254, testBit_mask252,
      testBit_mask248, testBit_mask240, testBit_mask224, testBit_mask192,
      testBit_mask128]

/-! ### Characterisation of `mnemonic_to_bytes` -/

theorem decode_invalid_count (m : String) (flag : Bool)
    (h : (pySplit m).length % 3 ≠ 0 ∨ (pySplit m).length < 12) :
    mnemonic_to_bytes m flag = .error .invalidPhrase := by
  unfold mnemonic_to_bytes
  rw [if_pos h]
  rfl

theorem decode_unknown_word (m : String) (flag : Bool) (w : String)
    (hcount : ¬((pySplit m).length % 3 ≠ 0 ∨ (pySplit m).length < 12))
    (hfind : (pySplit m).find? (fun v => decide (v ∉ WORDLIST)) = some w) :
    mnemonic_to_bytes m flag = .error (.unknownWord w) := by
  unfold mnemonic_to_bytes
  rw [if_neg hcount, packLoop_unknown _ _ w hfind]
  rfl

theorem mnemonic_to_bytes_char (m : String) (flag : Bool)
    (hcount : ¬((pySplit m).length % 3 ≠ 0 ∨ (pySplit m).length < 12))
    (hall : ∀ w ∈ pySplit m, w ∈ WORDLIST) :
    mnemonic_to_bytes m flag =
      (let raw := (packAll ((pySplit m).map (fun w => WORDLIST.indexOf w)) ([], 0)).1
       let checksum_length_bits := (pySplit m).length * 11 / 33
       let num_remainder := checksum_length_bits % 8
       let checksum_length := if num_remainder ≠ 0 then checksum_length_bits / 8 + 1
         else checksum_length_bits / 8
       let bits_to_ignore := if num_remainder ≠ 0 then 8 - num_remainder else 0
       let data := raw.take (raw.length - checksum_length)
       let checksum := raw.drop (raw.length - checksum_length)
       let computed0 := (sha256 data).take checksum_length
       let computed := computed0.dropLast ++
         [computed0.getLastD 0 &&& (256 - (1 <<< (bits_to_ignore + 1 - 1)))]
       if !flag && checksum ≠ computed then .error .checksumFailed
       else .ok data) := by
  unfold mnemonic_to_bytes
  rw [if_neg hcount, packLoop_ok _ _ hall]
  rfl

theorem decode_arith (ws : List String) (h3 : ws.length % 3 = 0)
    (h12 : 12 ≤ ws.length) :
    3 * decodeT ws = ws.length ∧ 8 * decodeCl ws = decodeT ws + decodeBti ws ∧
    decodeBti ws ≤ 7 ∧ 1 ≤ decodeCl ws ∧ 4 ≤ decodeT ws := by
  unfold decodeCl decodeBti decodeT
  by_cases h8 : ws.length * 11 / 33 % 8 = 0 <;> simp [h8] <;> omega

theorem decode_eq_ite (m : String) (ws : List String) (hws : pySplit m = ws)
    (h3 : ws.length % 3 = 0) (h12 : 12 ≤ ws.length)
    (hall : ∀ w ∈ ws, w ∈ WORDLIST) :
    mnemonic_to_bytes m false =
      (if decodeChecksum ws ≠ decodeComputed ws then .error .checksumFailed
       else .ok (decodeData ws)) := by
  have hchar := mnemonic_to_bytes_char m false (by rw [hws]; omega)
    (by rw [hws]; exact hall)
  rw [hws] at hchar
  rw [hchar]
  simp only [Bool.not_false, Bool.true_and]
  simp only [decide_eq_true_eq]
  rfl

theorem decodeChecksum_bits (ws : List String) (h3 : ws.length % 3 = 0)
    (h12 : 12 ≤ ws.length) (hall : ∀ w ∈ ws, w ∈ WORDLIST) :
    bytesToBits (decodeChecksum ws) =
      ((decodeIdxs ws).flatMap natBits11).drop (32 * decodeT ws) ++
        List.replicate (decodeBti ws) false ∧
    (decodeRaw ws).length = 4 * decodeT ws + decodeCl ws ∧
    (decodeData ws).length = 4 * decodeT ws ∧
    (∀ x ∈ decodeRaw ws, x < 256) ∧
    bytesToBits (decodeData ws) =
      ((decodeIdxs ws).flatMap natBits11).take (32 * decodeT ws) := by
  obtain ⟨hT, hclbti, hbti7, hcl1, ht4⟩ := decode_arith ws h3 h12
  have hidx2048 : ∀ i ∈ decodeIdxs ws, i < 2048 := by
    intro i hi
    rcases List.mem_map.1 hi with ⟨w, hw, rfl⟩
    have := List.indexOf_lt_length.2 (hall w hw)
    rwa [wordlist_length] at this
  obtain ⟨hoffeq, hinv⟩ := packAll_spec (decodeIdxs ws) ([], 0) [] hidx2048 PackInv_init
  rw [List.nil_append] at hinv
  obtain ⟨hstream, hlen8⟩ := PackInv_stream _ _ _ hinv
  have hidxlen : (decodeIdxs ws).length = ws.length := by simp [decodeIdxs]
  have hablen : ((decodeIdxs ws).flatMap natBits11).length = 33 * decodeT ws := by
    rw [flatMap_natBits11_length, hidxlen]
    omega
  have hpad : (8 - (0 + 3 * (decodeIdxs ws).length) % 8) % 8 = decodeBti ws := by
    rw [hidxlen]
    unfold decodeBti at hclbti hbti7 ⊢
    unfold decodeT at hclbti hbti7 ⊢
    by_cases h8 : ws.length * 11 / 33 % 8 = 0 <;> simp [h8] at hclbti hbti7 ⊢ <;> omega
  rw [hpad] at hstream hlen8
  rw [hablen] at hlen8
  have hrawlen : (decodeRaw ws).length = 4 * decodeT ws + decodeCl ws := by
    show (packAll (decodeIdxs ws) ([], 0)).1.length = _
    omega
  have hsub : (decodeRaw ws).length - decodeCl ws = 4 * decodeT ws := by omega
  have hdatalen : (decodeData ws).length = 4 * decodeT ws := by
    unfold decodeData
    rw [hsub, List.length_take]
    omega
  have hxlt : ∀ x ∈ decodeRaw ws, x < 256 := hinv.2.1
  refine ⟨?_, hrawlen, hdatalen, hxlt, ?_⟩
  · unfold decodeChecksum
    rw [hsub]
    have hbd : bytesToBits ((decodeRaw ws).drop (4 * decodeT ws)) =
        (bytesToBits (decodeRaw ws)).drop (8 * (4 * decodeT ws)) :=
      bytesToBits_drop _ _
    rw [hbd]
    show (bytesToBits (packAll (decodeIdxs ws) ([], 0)).1).drop _ = _
    rw [hstream, List.drop_append_eq_append_drop]
    have h1 : 8 * (4 * decodeT ws) - 33 * decodeT ws = 0 := by
      have := congrArg List.length hstream
      omega
    have h2 : ((decodeIdxs ws).flatMap natBits11).length = 33 * decodeT ws := hablen
    rw [h2, h1, List.drop_zero]
    congr 2
    omega
  · unfold decodeData
    rw [hsub]
    have hbd : bytesToBits ((decodeRaw ws).take (4 * decodeT ws)) =
        (bytesToBits (decodeRaw ws)).take (8 * (4 * decodeT ws)) :=
      bytesToBits_take _ _
    rw [hbd]
    show (bytesToBits (packAll (decodeIdxs ws) ([], 0)).1).take _ = _
    rw [hstream, List.take_append_eq_append_take]
    have h1 : 8 * (4 * decodeT ws) - 33 * decodeT ws = 0 := by omega
    rw [hablen, h1, List.take_zero, List.append_nil]
    congr 1
    omega

theorem decodeComputed_shape (ws : List String) (h3 : ws.length % 3 = 0)
    (h12 : 12 ≤ ws.length) (hcl32 : decodeCl ws ≤ 32) :
    decodeComputed ws =
      (sha256 (decodeData ws)).take (decodeCl ws - 1) ++
        [getElem (sha256 (decodeData ws)) (decodeCl ws - 1) (by rw [sha256_length]; omega) &&&
          (256 - (1 <<< (decodeBti ws + 1 - 1)))] := by
  obtain ⟨hT, hclbti, hbti7, hcl1, ht4⟩ := decode_arith ws h3 h12
  have hlt : decodeCl ws - 1 < (sha256 (decodeData ws)).length := by
    rw [sha256_length]
    omega
  have hsplit : (sha256 (decodeData ws)).take (decodeCl ws) =
      (sha256 (decodeData ws)).take (decodeCl ws - 1) ++
        [getElem (sha256 (decodeData ws)) (decodeCl ws - 1) hlt] := by
    have he : decodeCl ws = (decodeCl ws - 1) + 1 := by omega
    conv_lhs => rw [he]
    rw [List.take_succ, List.getElem?_eq_getElem (by omega)]
    rfl
  have hd1 : ((sha256 (decodeData ws)).take (decodeCl ws)).dropLast =
      (sha256 (decodeData ws)).take (decodeCl ws - 1) := by
    rw [hsplit, List.dropLast_concat]
  have hd2 : ((sha256 (decodeData ws)).take (decodeCl ws)).getLastD 0 =
      getElem (sha256 (decodeData ws)) (decodeCl ws - 1) hlt := by
    rw [hsplit, List.getLastD_concat]
  unfold decodeComputed
  rw [hd1, hd2]

theorem decodeComputed_bits (ws : List String) (h3 : ws.length % 3 = 0)
    (h12 : 12 ≤ ws.length) (hcl32 : decodeCl ws ≤ 32) :
    bytesToBits (decodeComputed ws) =
      (bytesToBits (sha256 (decodeData ws))).take (decodeT ws) ++
        List.replicate (decodeBti ws) false := by
  obtain ⟨hT, hclbti, hbti7, hcl1, ht4⟩ := decode_arith ws h3 h12
  rw [decodeComputed_shape ws h3 h12 hcl32]
  rw [bytesToBits_append]
  have h1 : bytesToBits ((sha256 (decodeData ws)).take (decodeCl ws - 1)) =
      (bytesToBits (sha256 (decodeData ws))).take (8 * (decodeCl ws - 1)) :=
    bytesToBits_take _ _
  have h2 : bytesToBits [getElem (sha256 (decodeData ws)) (decodeCl ws - 1) (by rw [sha256_length]; omega) &&&
      (256 - (1 <<< (decodeBti ws + 1 - 1)))] =
      byteBits (getElem (sha256 (decodeData ws)) (decodeCl ws - 1) (by rw [sha256_length]; omega) &&&
        (256 - (1 <<< (decodeBti ws + 1 - 1)))) := by
    simp [bytesToBits]
  rw [h1, h2, byteBits_mask _ _ (by omega)]
  have htake : (bytesToBits (sha256 (decodeData ws))).take (decodeT ws) =
      (bytesToBits (sha256 (decodeData ws))).take (8 * (decodeCl ws - 1)) ++
        ((bytesToBits (sha256 (decodeData ws))).drop (8 * (decodeCl ws - 1))).take
          (8 - decodeBti ws) := by
    have he : decodeT ws = 8 * (decodeCl ws - 1) + (8 - decodeBti ws) := by omega
    rw [he, List.take_add]
  rw [htake, List.append_assoc]
  congr 1
  congr 1
  have hdropbytes : (bytesToBits (sha256 (decodeData ws))).drop (8 * (decodeCl ws - 1)) =
      bytesToBits ((sha256 (decodeData ws)).drop (decodeCl ws - 1)) :=
    (bytesToBits_drop _ _).symm
  rw [hdropbytes]
  have hcons : (sha256 (decodeData ws)).drop (decodeCl ws - 1) =
      getElem (sha256 (decodeData ws)) (decodeCl ws - 1) (by rw [sha256_length]; omega) ::
        (sha256 (decodeData ws)).drop (decodeCl ws) := by
    conv_lhs => rw [List.drop_eq_getElem_cons (by rw [sha256_length]; omega)]
    have he2 : decodeCl ws - 1 + 1 = decodeCl ws := by omega
    rw [he2]
  rw [hcons, bytesToBits_cons, List.take_append_eq_append_take]
  have h8 : (byteBits (getElem (sha256 (decodeData ws)) (decodeCl ws - 1) (by rw [sha256_length]; omega))).length = 8 := rfl
  rw [h8]
  have hz : 8 - decodeBti ws - 8 = 0 := by omega
  rw [hz, List.take_zero, List.append_nil]

theorem decode_checksum_iff (m : String) (ws : List String)
    (hws : pySplit m = ws) (h3 : ws.length % 3 = 0) (h12 : 12 ≤ ws.length)
    (hall : ∀ w ∈ ws, w ∈ WORDLIST) :
    (mnemonic_to_bytes m false = .ok (decodeData ws)) ↔
      (bytesToBits (decodeChecksum ws)).take (decodeT ws) =
        (bytesToBits (sha256 (decodeData ws))).take (decodeT ws) := by
  obtain ⟨hT, hclbti, hbti7, hcl1, ht4⟩ := decode_arith ws h3 h12
  obtain ⟨hE, hrawlen, hdatalen, hraw256, hD⟩ := decodeChecksum_bits ws h3 h12 hall
  have hite := decode_eq_ite m ws hws h3 h12 hall
  have hcslen : (decodeChecksum ws).length = decodeCl ws := by
    unfold decodeChecksum
    rw [List.length_drop]
    omega
  have hcs256 : ∀ x ∈ decodeChecksum ws, x < 256 := fun x hx =>
    hraw256 x (List.mem_of_mem_drop hx)
  by_cases hcl32 : decodeCl ws ≤ 32
  · have hC := decodeComputed_bits ws h3 h12 hcl32
    have hcomplen : (decodeComputed ws).length = decodeCl ws := by
      rw [decodeComputed_shape ws h3 h12 hcl32]
      simp
      rw [sha256_length]
      omega
    have hcomp256 : ∀ x ∈ decodeComputed ws, x < 256 := by
      intro x hx
      rw [decodeComputed_shape ws h3 h12 hcl32] at hx
      rcases List.mem_append.1 hx with hx | hx
      · exact sha256_lt _ _ (List.mem_of_mem_take hx)
      · simp only [List.mem_singleton] at hx
        subst hx
        exact lt_of_le_of_lt Nat.and_le_left (sha256_lt _ _ (List.getElem_mem _))
    have hElen : (((decodeIdxs ws).flatMap natBits11).drop (32 * decodeT ws)).length
        = decodeT ws := by
      rw [List.length_drop, flatMap_natBits11_length]
      have : (decodeIdxs ws).length = ws.length := by simp [decodeIdxs]
      omega
    have hClen : ((bytesToBits (sha256 (decodeData ws))).take (decodeT ws)).length
        = decodeT ws := by
      rw [List.length_take, bytesToBits_length, sha256_length]
      omega
    have hEtake : (bytesToBits (decodeChecksum ws)).take (decodeT ws) =
        ((decodeIdxs ws).flatMap natBits11).drop (32 * decodeT ws) := by
      rw [hE, List.take_append_eq_append_take, hElen, Nat.sub_self, List.take_zero,
        List.append_nil, List.take_of_length_le (le_of_eq hElen)]
    constructor
    · intro hok
      by_cases heq : decodeChecksum ws = decodeComputed ws
      · rw [hEtake]
        have hbits : bytesToBits (decodeChecksum ws) =
            bytesToBits (decodeComputed ws) := by rw [heq]
        rw [hE, hC] at hbits
        exact List.append_inj_left hbits (by rw [hElen, hClen])
      · rw [hite, if_pos heq] at hok
        exact absurd hok (by simp)
    · intro htakeEq
      have hbits : bytesToBits (decodeChecksum ws) =
          bytesToBits (decodeComputed ws) := by
        rw [hE, hC]
        have h5 : ((decodeIdxs ws).flatMap natBits11).drop (32 * decodeT ws) =
            (bytesToBits (sha256 (decodeData ws))).take (decodeT ws) := by
          rw [← hEtake]
          exact htakeEq
        rw [h5]
      have heq : decodeChecksum ws = decodeComputed ws :=
        bytes_inj _ _ (by rw [hcslen, hcomplen]) hcs256 hcomp256 hbits
      rw [hite, if_neg (by simpa using heq)]
  · have hcomplen : (decodeComputed ws).length = 32 := by
      unfold decodeComputed
      simp
      rw [sha256_length]
      omega
    constructor
    · intro hok
      have hne : decodeChecksum ws ≠ decodeComputed ws := by
        intro heq
        have hn := congrArg List.length heq
        rw [hcslen, hcomplen] at hn
        omega
      rw [hite, if_pos hne] at hok
      exact absurd hok (by simp)
    · intro htakeEq
      exfalso
      have h1 := congrArg List.length htakeEq
      rw [List.length_take, List.length_take, bytesToBits_length, bytesToBits_length,
        hcslen, sha256_length] at h1
      omega

/-! ### Chunked views of the index bitstream -/

theorem flatMap_congr (l : List Nat) (f g : Nat → List Bool)
    (h : ∀ a ∈ l, f a = g a) : l.flatMap f = l.flatMap g := by
  induction l with
  | nil => rfl
  | cons a t ih =>
    rw [List.flatMap_cons, List.flatMap_cons, h a (by simp),
      ih (fun x hx => h x (by simp [hx]))]

theorem range_flatMap_range' (f : Nat → Bool) (n : Nat) :
    (List.range n).flatMap (fun i => (List.range' (11 * i) 11).map f) =
      (List.range' 0 (11 * n)).map f := by
  induction n with
  | zero => simp
  | succ m ih =>
    rw [List.range_succ, List.flatMap_append, ih]
    simp only [List.flatMap_cons, List.flatMap_nil, List.append_nil]
    rw [← List.map_append]
    congr 1
    have h := List.range'_append 0 (11 * m) 11 1
    norm_num at h
    rw [show 11 * (m + 1) = 11 + 11 * m by ring]
    exact h

theorem flatMap_natBits11_slice (idxs : List Nat) :
    ∀ i, i < idxs.length →
      ((idxs.flatMap natBits11).drop (11 * i)).take 11 =
        natBits11 (idxs.getD i 0) := by
  induction idxs with
  | nil => intro i hi; simp at hi
  | cons a rest ih =>
    intro i hi
    cases i with
    | zero =>
      rw [List.flatMap_cons]
      simp only [Nat.mul_zero, List.drop_zero, List.getD_cons_zero]
      rw [List.take_append_eq_append_take]
      have h11 : (natBits11 a).length = 11 := by simp [natBits11]
      rw [List.take_of_length_le (by omega), h11, Nat.sub_self, List.take_zero,
        List.append_nil]
    | succ j =>
      rw [List.flatMap_cons, List.drop_append_eq_append_drop]
      have h11 : (natBits11 a).length = 11 := by simp [natBits11]
      rw [List.drop_of_length_le (by omega), h11]
      have he : 11 * (j + 1) - 11 = 11 * j := by ring_nf; omega
      rw [he]
      simp only [List.nil_append, List.getD_cons_succ]
      exact ih j (by simpa using hi)

theorem decodeChecksum_take (ws : List String) (h3 : ws.length % 3 = 0)
    (h12 : 12 ≤ ws.length) (hall : ∀ w ∈ ws, w ∈ WORDLIST) :
    (bytesToBits (decodeChecksum ws)).take (decodeT ws) =
      ((decodeIdxs ws).flatMap natBits11).drop (32 * decodeT ws) := by
  obtain ⟨hT, hclbti, hbti7, hcl1, ht4⟩ := decode_arith ws h3 h12
  obtain ⟨hE, hrawlen, hdatalen, hraw256, hD⟩ := decodeChecksum_bits ws h3 h12 hall
  have hElen : (((decodeIdxs ws).flatMap natBits11).drop (32 * decodeT ws)).length
      = decodeT ws := by
    rw [List.length_drop, flatMap_natBits11_length]
    have : (decodeIdxs ws).length = ws.length := by simp [decodeIdxs]
    omega
  rw [hE, List.take_append_eq_append_take, hElen, Nat.sub_self, List.take_zero,
    List.append_nil, List.take_of_length_le (le_of_eq hElen)]

/-- C1: for every entropy byte string whose length is one of
{16, 20, 24, 28, 32} bytes, with arbitrary byte values, `mnemonic_from_bytes`
succeeds, and `mnemonic_to_bytes` with checksum verification enabled succeeds
on the resulting phrase and returns exactly the original entropy. -/
theorem C1_encode_decode_roundtrip (e : List Nat)
    (hlen : e.length = 16 ∨ e.length = 20 ∨ e.length = 24 ∨ e.length = 28 ∨
      e.length = 32)
    (hbytes : ∀ x ∈ e, x < 256) :
    ∃ phrase, mnemonic_from_bytes e = .ok phrase ∧
      mnemonic_to_bytes phrase false = .ok e := by
  obtain ⟨k, hk, hk4, hk8⟩ : ∃ k, e.length = 4 * k ∧ 4 ≤ k ∧ k ≤ 8 := by
    exact ⟨e.length / 4, by omega, by omega, by omega⟩
  have h4 : e.length % 4 = 0 := by omega
  have h1024 : e.length ≤ 1024 := by omega
  have henc := mnemonic_from_bytes_ok e h4 h1024
  have htot : (e.length * 8 + e.length * 8 / 32) / 11 = 3 * k := by omega
  rw [htot] at henc
  set W := (List.range (3 * k)).map
    (fun i => WORDLIST.getD (specIndex (e ++ sha256 e) i) "") with hWdef
  refine ⟨_, henc, ?_⟩
  have hfullen : (e ++ sha256 e).length = 4 * k + 32 := by
    rw [List.length_append, sha256_length]
    omega
  have hWlen : W.length = 3 * k := by simp [hWdef]
  have h3 : W.length % 3 = 0 := by omega
  have h12 : 12 ≤ W.length := by omega
  have hsi : ∀ i, specIndex (e ++ sha256 e) i < WORDLIST.length := by
    intro i
    rw [wordlist_length]
    exact specIndex_lt _ _
  have hmem : ∀ w ∈ W, w ∈ WORDLIST := by
    intro w hw
    rw [hWdef] at hw
    rcases List.mem_map.1 hw with ⟨i, _, rfl⟩
    rw [List.getD_eq_getElem _ _ (hsi i)]
    exact List.getElem_mem _
  have hsplit : pySplit (String.intercalate " " W) = W :=
    pySplit_intercalate W (fun w hw => wordlist_words_ok w (hmem w hw))
  have hT : decodeT W = k := by
    unfold decodeT
    rw [hWlen]
    omega
  have hidxs : decodeIdxs W = (List.range (3 * k)).map
      (fun i => specIndex (e ++ sha256 e) i) := by
    unfold decodeIdxs
    rw [hWdef, List.map_map]
    refine List.map_congr_left ?_
    intro i _
    show WORDLIST.indexOf (WORDLIST.getD (specIndex (e ++ sha256 e) i) "") = _
    rw [List.getD_eq_getElem _ _ (hsi i)]
    have := List.get_indexOf wordlist_nodup ⟨specIndex (e ++ sha256 e) i, hsi i⟩
    simpa using this
  have hAB : (decodeIdxs W).flatMap natBits11 =
      (bytesToBits (e ++ sha256 e)).take (33 * k) := by
    rw [hidxs, List.flatMap_map]
    have hpt : ∀ i ∈ List.range (3 * k),
        natBits11 (specIndex (e ++ sha256 e) i) =
          (List.range' (11 * i) 11).map (bitAt (e ++ sha256 e)) := by
      intro i _
      unfold specIndex
      rw [natBits11_bitsToNat _ (by simp)]
    rw [flatMap_congr _ _ (fun i => (List.range' (11 * i) 11).map (bitAt (e ++ sha256 e)))
      hpt, range_flatMap_range']
    rw [show 11 * (3 * k) = 33 * k by ring]
    rw [range'_map_bitAt _ 0 (33 * k) (by rw [hfullen]; omega)]
    rw [List.drop_zero]
  obtain ⟨hE, hrawlen, hdatalen, hraw256, hD⟩ := decodeChecksum_bits W h3 h12 hmem
  have hdata_e : decodeData W = e := by
    refine bytes_inj _ _ ?_ ?_ hbytes ?_
    · rw [hdatalen, hT]
      omega
    · intro x hx
      exact hraw256 x (List.mem_of_mem_take hx)
    · rw [hD, hAB, hT, List.take_take]
      rw [show min (32 * k) (33 * k) = 32 * k by omega]
      rw [show (32 : Nat) * k = 8 * (4 * k) by ring, ← bytesToBits_take]
      rw [show (4 : Nat) * k = e.length by omega, List.take_left]
  have hcond : (bytesToBits (decodeChecksum W)).take (decodeT W) =
      (bytesToBits (sha256 (decodeData W))).take (decodeT W) := by
    rw [decodeChecksum_take W h3 h12 hmem, hAB, hT, List.drop_take]
    rw [show (32 : Nat) * k = 8 * (4 * k) by ring, ← bytesToBits_drop]
    rw [show (4 : Nat) * k = e.length by omega, List.drop_left]
    rw [hdata_e]
    congr 1
    omega
  have := (decode_checksum_iff (String.intercalate " " W) W hsplit h3 h12 hmem).mpr hcond
  rw [hdata_e] at this
  exact this

/-- C3 (amended): for every phrase in normalised whitespace form (single
spaces, no leading or trailing whitespace) that `mnemonic_to_bytes` accepts
with checksum verification, `mnemonic_from_bytes` of the returned entropy
gives back the original phrase. The normalisation hypothesis cannot be
dropped: the original claim fails on accepted phrases with extra
whitespace. -/
theorem decode_encode_roundtrip (m : String) (res : List Nat)
    (hnorm : m = String.intercalate " " (pySplit m))
    (hok : mnemonic_to_bytes m false = .ok res) :
    mnemonic_from_bytes res = .ok m := by
  by_cases hc : (pySplit m).length % 3 ≠ 0 ∨ (pySplit m).length < 12
  · rw [decode_invalid_count m false hc] at hok
    exact absurd hok (by simp)
  have h3 : (pySplit m).length % 3 = 0 := by omega
  have h12 : 12 ≤ (pySplit m).length := by omega
  cases hfind : (pySplit m).find? (fun v => decide (v ∉ WORDLIST)) with
  | some w =>
    rw [decode_unknown_word m false w hc hfind] at hok
    exact absurd hok (by simp)
  | none =>
  have hall : ∀ w ∈ pySplit m, w ∈ WORDLIST := by
    intro w hw
    have := List.find?_eq_none.1 hfind w hw
    simpa using this
  obtain ⟨hT, hclbti, hbti7, hcl1, ht4⟩ := decode_arith (pySplit m) h3 h12
  have hite := decode_eq_ite m (pySplit m) rfl h3 h12 hall
  rw [hite] at hok
  by_cases hne : decodeChecksum (pySplit m) ≠ decodeComputed (pySplit m)
  · rw [if_pos hne] at hok
    exact absurd hok (by simp)
  rw [if_neg hne] at hok
  have hres : res = decodeData (pySplit m) := (Except.ok.inj hok).symm
  have hcond := (decode_checksum_iff m (pySplit m) rfl h3 h12 hall).mp
    (by rw [hite, if_neg hne])
  obtain ⟨hE, hrawlen, hdatalen, hraw256, hD⟩ := decodeChecksum_bits (pySplit m) h3 h12 hall
  have hcslen : (decodeChecksum (pySplit m)).length = decodeCl (pySplit m) := by
    unfold decodeChecksum
    rw [List.length_drop]
    omega
  have ht256 : decodeT (pySplit m) ≤ 256 := by
    have hlen := congrArg List.length hcond
    rw [List.length_take, List.length_take, bytesToBits_length, bytesToBits_length,
      hcslen, sha256_length] at hlen
    omega
  have hreslen : res.length = 4 * decodeT (pySplit m) := by rw [hres, hdatalen]
  have henc := mnemonic_from_bytes_ok res (by omega) (by omega)
  have htot : (res.length * 8 + res.length * 8 / 32) / 11 = 3 * decodeT (pySplit m) := by
    omega
  rw [htot] at henc
  -- the index bitstream of the phrase equals the first 33t bits of res ++ sha256 res
  have hfullen : (res ++ sha256 res).length = 4 * decodeT (pySplit m) + 32 := by
    rw [List.length_append, sha256_length]
    omega
  have hshalen : (bytesToBits res).length = 32 * decodeT (pySplit m) := by
    rw [bytesToBits_length]
    omega
  have hdropAB : ((decodeIdxs (pySplit m)).flatMap natBits11).drop
      (32 * decodeT (pySplit m)) =
      (bytesToBits (sha256 res)).take (decodeT (pySplit m)) := by
    rw [← decodeChecksum_take (pySplit m) h3 h12 hall, hcond, hres]
  have hABlen : ((decodeIdxs (pySplit m)).flatMap natBits11).length =
      33 * decodeT (pySplit m) := by
    rw [flatMap_natBits11_length]
    have : (decodeIdxs (pySplit m)).length = (pySplit m).length := by simp [decodeIdxs]
    omega
  have hfull33 : (bytesToBits (res ++ sha256 res)).take (33 * decodeT (pySplit m)) =
      (decodeIdxs (pySplit m)).flatMap natBits11 := by
    rw [bytesToBits_append, List.take_append_eq_append_take, hshalen]
    rw [List.take_of_length_le (by omega)]
    rw [show 33 * decodeT (pySplit m) - 32 * decodeT (pySplit m) =
      decodeT (pySplit m) by omega]
    rw [← hdropAB]
    have hBD : bytesToBits res =
        ((decodeIdxs (pySplit m)).flatMap natBits11).take (32 * decodeT (pySplit m)) := by
      rw [← hres] at hD
      exact hD
    rw [hBD, List.take_append_drop]
  -- each extracted index of the re-encode equals the original word index
  have hidx2048 : ∀ i ∈ decodeIdxs (pySplit m), i < 2048 := by
    intro i hi
    rcases List.mem_map.1 hi with ⟨w, hw, rfl⟩
    have := List.indexOf_lt_length.2 (hall w hw)
    rwa [wordlist_length] at this
  have hwords : (List.range (3 * decodeT (pySplit m))).map
      (fun i => WORDLIST.getD (specIndex (res ++ sha256 res) i) "") = pySplit m := by
    refine List.ext_getElem (by simp; omega) ?_
    intro i h1 h2
    have hi3t : i < 3 * decodeT (pySplit m) := by simpa using h1
    rw [List.getElem_map, List.getElem_range]
    have hchunk : (List.range' (11 * i) 11).map (bitAt (res ++ sha256 res)) =
        natBits11 ((decodeIdxs (pySplit m)).getD i 0) := by
      rw [range'_map_bitAt (res ++ sha256 res) (11 * i) 11 (by rw [hfullen]; omega)]
      have hdt : ((bytesToBits (res ++ sha256 res)).drop (11 * i)).take 11 =
          (((bytesToBits (res ++ sha256 res)).take (33 * decodeT (pySplit m))).drop
            (11 * i)).take 11 := by
        rw [List.drop_take]
        rw [List.take_take]
        congr 1
        omega
      rw [hdt, hfull33]
      exact flatMap_natBits11_slice _ i (by simp [decodeIdxs]; omega)
    have hidxd : (decodeIdxs (pySplit m)).getD i 0 =
        WORDLIST.indexOf (getElem (pySplit m) i h2) := by
      unfold decodeIdxs
      rw [List.getD_eq_getElem _ _ (by simp; omega), List.getElem_map]
    have hmemidx : (decodeIdxs (pySplit m)).getD i 0 ∈ decodeIdxs (pySplit m) := by
      rw [List.getD_eq_getElem _ _ (by simp [decodeIdxs]; omega)]
      exact List.getElem_mem _
    have hspec : specIndex (res ++ sha256 res) i =
        WORDLIST.indexOf (getElem (pySplit m) i h2) := by
      unfold specIndex
      rw [hchunk, bitsToNat_natBits11 _ (hidx2048 _ hmemidx), hidxd]
    rw [hspec]
    have hmemI : getElem (pySplit m) i h2 ∈ WORDLIST := hall _ (List.getElem_mem _)
    have hlt := List.indexOf_lt_length.2 hmemI
    rw [List.getD_eq_getElem _ _ hlt]
    exact List.getElem_indexOf hlt
  rw [hwords] at henc
  rw [henc, ← hnorm]

/-! ### Shape of the PBKDF2-HMAC-SHA512 output -/

theorem sha512_length (msg : List Nat) : (sha512 msg).length = 64 := by
  unfold sha512
  have hfold : ∀ (l : List Nat) (st : List Nat), st.length = 8 →
      (l.foldl (fun h i =>
        sha512Compress h (((sha512Pad msg).drop (128 * i)).take 128)) st).length = 8 := by
    intro l
    induction l with
    | nil => intro st hst; exact hst
    | cons a t ih => intro st _; exact ih _ rfl
  have hflat : ∀ (l : List Nat), (l.flatMap (natToBytesBE 8)).length = 8 * l.length := by
    intro l
    induction l with
    | nil => rfl
    | cons a t ih =>
      show (natToBytesBE 8 a ++ t.flatMap (natToBytesBE 8)).length = _
      simp [natToBytesBE, ih]
      omega
  rw [hflat, hfold _ sha512H0 rfl]

theorem hmacSha512_length (key msg : List Nat) : (hmacSha512 key msg).length = 64 :=
  sha512_length _

theorem pbkdf2Block_length (password salt : List Nat) (iterations i : Nat) :
    (pbkdf2Block password salt iterations i).length = 64 := by
  unfold pbkdf2Block
  have haux : ∀ (l : List Nat) (acc : List Nat × List Nat),
      acc.1.length = 64 → acc.2.length = 64 →
      ((l.foldl (fun acc _ =>
        (hmacSha512 password acc.1,
         List.zipWith (fun a b => a ^^^ b) acc.2 (hmacSha512 password acc.1))) acc).2).length
        = 64 := by
    intro l
    induction l with
    | nil => intro acc _ h2; exact h2
    | cons a t ih =>
      intro acc h1 h2
      refine ih _ (hmacSha512_length _ _) ?_
      simp [List.length_zipWith, h2, hmacSha512_length]
  exact haux _ _ (hmacSha512_length _ _) (hmacSha512_length _ _)

theorem pbkdf2_out_length (password salt : List Nat) (iterations : Nat) :
    (pbkdf2HmacSha512 password salt iterations 64).length = 64 := by
  unfold pbkdf2HmacSha512
  rw [List.length_take]
  have h1 : (64 + 63) / 64 = 1 := by norm_num
  rw [h1]
  have h2 : List.range 1 = [0] := rfl
  rw [h2]
  show min 64 ((pbkdf2Block password salt iterations (0 + 1) ++ []).length) = 64
  rw [List.append_nil, pbkdf2Block_length]
  simp

/-- C4: `mnemonic_to_seed` fails exactly when `mnemonic_to_bytes` (with
checksum verification) fails, propagating the same error unchanged; on
success it returns the 64-byte PBKDF2-HMAC-SHA512 output with password the
UTF-8 phrase bytes, salt the UTF-8 bytes of `"mnemonic"` plus the
passphrase, and 2048 iterations. -/
theorem C4_seed_derivation (m password : String) :
    (∀ e, mnemonic_to_seed m password = .error e ↔
      mnemonic_to_bytes m false = .error e) ∧
    (∀ bs, mnemonic_to_bytes m false = .ok bs →
      mnemonic_to_seed m password =
        .ok (pbkdf2HmacSha512 (utf8 m) (utf8 ("mnemonic" ++ password)) 2048 64) ∧
      (pbkdf2HmacSha512 (utf8 m) (utf8 ("mnemonic" ++ password)) 2048 64).length = 64) := by
  have hstruct : ∀ r, mnemonic_to_bytes m false = r →
      mnemonic_to_seed m password = (match r with
        | .error e => .error e
        | .ok _ => .ok (pbkdf2HmacSha512 (utf8 m) (utf8 ("mnemonic" ++ password))
            PBKDF2_ROUNDS 64)) := by
    intro r hr
    unfold mnemonic_to_seed
    rw [hr]
    cases r <;> rfl
  constructor
  · intro e
    constructor
    · intro hs
      cases hr : mnemonic_to_bytes m false with
      | error e' =>
        have h2 := hstruct _ hr
        rw [hs] at h2
        have h3 : e = e' := by simpa using h2
        rw [h3]
      | ok bs =>
        have h2 := hstruct _ hr
        rw [hs] at h2
        simp at h2
    · intro hd
      rw [hstruct _ hd]
  · intro bs hd
    refine ⟨?_, pbkdf2_out_length _ _ _⟩
    rw [hstruct _ hd]
    rfl

/-! ### The remaining claims -/

/-- C1 witness: the round trip at the 16 zero bytes. -/
theorem C1_encode_decode_roundtrip_witness :
    ((List.replicate 16 (0 : Nat)).length = 16 ∨
      (List.replicate 16 (0 : Nat)).length = 20 ∨
      (List.replicate 16 (0 : Nat)).length = 24 ∨
      (List.replicate 16 (0 : Nat)).length = 28 ∨
      (List.replicate 16 (0 : Nat)).length = 32) ∧
    ∃ phrase, mnemonic_from_bytes (List.replicate 16 0) = .ok phrase ∧
      mnemonic_to_bytes phrase false = .ok (List.replicate 16 0) :=
  ⟨by decide, C1_encode_decode_roundtrip (List.replicate 16 0) (by decide) (by decide)⟩

/-- C2: on every phrase with a valid word count whose words are all in the
wordlist, the final-byte mask `256 - (1 << (bits_to_ignore + 1) - 1)` of
line 70 keeps exactly the top `8 - bits_to_ignore` bits of the final
computed-checksum byte and zeroes the low `bits_to_ignore` bits, and with
that mask the verification of lines 66-72 succeeds exactly when the
`checksum_length_bits` checksum bits embedded in the phrase equal the first
`checksum_length_bits` bits of SHA-256 of the data bytes. -/
theorem C2_checksum_mask_comparison (m : String) (ws : List String)
    (hws : pySplit m = ws) (h3 : ws.length % 3 = 0) (h12 : 12 ≤ ws.length)
    (hall : ∀ w ∈ ws, w ∈ WORDLIST) :
    (∀ c, byteBits (c &&& (256 - (1 <<< (decodeBti ws + 1 - 1)))) =
      (byteBits c).take (8 - decodeBti ws) ++ List.replicate (decodeBti ws) false) ∧
    ((mnemonic_to_bytes m false = .ok (decodeData ws)) ↔
      (bytesToBits (decodeChecksum ws)).take (decodeT ws) =
        (bytesToBits (sha256 (decodeData ws))).take (decodeT ws)) := by
  obtain ⟨hT, hclbti, hbti7, hcl1, ht4⟩ := decode_arith ws h3 h12
  exact ⟨fun c => byteBits_mask c _ hbti7,
    decode_checksum_iff m ws hws h3 h12 hall⟩

/-- C2 witness: the mask and comparison property at the canonical 12-word
phrase. -/
theorem C2_checksum_mask_comparison_witness :
    (∀ c, byteBits (c &&& (256 - (1 <<<
        (decodeBti (List.replicate 11 "abandon" ++ ["about"]) + 1 - 1)))) =
      (byteBits c).take (8 - decodeBti (List.replicate 11 "abandon" ++ ["about"])) ++
        List.replicate (decodeBti (List.replicate 11 "abandon" ++ ["about"])) false) ∧
    ((mnemonic_to_bytes
        "abandon abandon abandon abandon abandon abandon abandon abandon abandon abandon abandon about"
        false = .ok (decodeData (List.replicate 11 "abandon" ++ ["about"]))) ↔
      (bytesToBits (decodeChecksum (List.replicate 11 "abandon" ++ ["about"]))).take
          (decodeT (List.replicate 11 "abandon" ++ ["about"])) =
        (bytesToBits (sha256 (decodeData (List.replicate 11 "abandon" ++ ["about"])))).take
          (decodeT (List.replicate 11 "abandon" ++ ["about"]))) :=
  C2_checksum_mask_comparison
    "abandon abandon abandon abandon abandon abandon abandon abandon abandon abandon abandon about"
    (List.replicate 11 "abandon" ++ ["about"]) (by decide) (by decide) (by decide)
    (by decide)

/-- C3 counterexample: a phrase with a doubled space is accepted by
`mnemonic_to_bytes` with checksum verification, yet `mnemonic_from_bytes`
of the returned entropy produces the single-spaced phrase, which differs
from the input. -/
theorem C3_counterexample_double_space :
    mnemonic_to_bytes
      "abandon  abandon abandon abandon abandon abandon abandon abandon abandon abandon abandon about"
      false = .ok (List.replicate 16 0) ∧
    mnemonic_from_bytes (List.replicate 16 0) ≠
      .ok "abandon  abandon abandon abandon abandon abandon abandon abandon abandon abandon abandon about" :=
  ⟨by decide, by decide⟩

/-- C3 witness: the amended round trip at the canonical 12-word phrase. -/
theorem decode_encode_roundtrip_witness :
    "abandon abandon abandon abandon abandon abandon abandon abandon abandon abandon abandon about" =
      String.intercalate " " (pySplit
        "abandon abandon abandon abandon abandon abandon abandon abandon abandon abandon abandon about") ∧
    mnemonic_from_bytes (List.replicate 16 0) =
      .ok "abandon abandon abandon abandon abandon abandon abandon abandon abandon abandon abandon about" :=
  ⟨by decide, decode_encode_roundtrip _ (List.replicate 16 0) (by decide) (by decide)⟩

/-- C4 witness: seed derivation at the canonical phrase and passphrase
`"TREZOR"`. -/
theorem C4_seed_derivation_witness :
    mnemonic_to_seed
      "abandon abandon abandon abandon abandon abandon abandon abandon abandon abandon abandon about"
      "TREZOR" =
    .ok (pbkdf2HmacSha512
      (utf8 "abandon abandon abandon abandon abandon abandon abandon abandon abandon abandon abandon about")
      (utf8 ("mnemonic" ++ "TREZOR")) 2048 64) :=
  ((C4_seed_derivation
    "abandon abandon abandon abandon abandon abandon abandon abandon abandon abandon abandon about"
    "TREZOR").2 (List.replicate 16 0) (by decide)).1

/-- C5: `mnemonic_from_bytes` on 16 zero bytes returns the space-joined
12-word phrase of eleven repetitions of the word at index 0 (`"abandon"`)
followed by the word at index 3 (`"about"`). -/
theorem C5_zero_entropy_vector :
    mnemonic_from_bytes (List.replicate 16 0) =
      .ok (String.intercalate " " (List.replicate 11 (WORDLIST.getD 0 "") ++
        [WORDLIST.getD 3 ""])) ∧
    WORDLIST.getD 0 "" = "abandon" ∧ WORDLIST.getD 3 "" = "about" :=
  ⟨by decide, rfl, rfl⟩

/-- C6: a phrase whose whitespace-separated word count is not a multiple of
3 or is below 12 makes `mnemonic_to_bytes` fail with the invalid-phrase
error, for either value of the checksum flag and regardless of the words
themselves. -/
theorem C6_invalid_phrase_length (m : String) (flag : Bool)
    (h : (pySplit m).length % 3 ≠ 0 ∨ (pySplit m).length < 12) :
    mnemonic_to_bytes m flag = .error .invalidPhrase :=
  decode_invalid_count m flag h

/-- C6 witness: a 3-word phrase of words outside the wordlist fails with
the invalid-phrase error under both flag values. -/
theorem C6_invalid_phrase_length_witness :
    (((pySplit "a b c").length % 3 ≠ 0 ∨ (pySplit "a b c").length < 12) ∧
      mnemonic_to_bytes "a b c" true = .error .invalidPhrase) ∧
    mnemonic_to_bytes "a b c" false = .error .invalidPhrase :=
  ⟨⟨by decide, C6_invalid_phrase_length "a b c" true (by decide)⟩,
    C6_invalid_phrase_length "a b c" false (by decide)⟩

/-- C7: a phrase with a valid word count containing a word absent from the
wordlist makes `mnemonic_to_bytes` fail with the unknown-word error naming
the first absent word in phrase order, for either flag value; the `Except`
result carries no partial output. -/
theorem C7_unknown_word (m : String) (flag : Bool) (w : String)
    (hcount : ¬((pySplit m).length % 3 ≠ 0 ∨ (pySplit m).length < 12))
    (hfind : (pySplit m).find? (fun v => decide (v ∉ WORDLIST)) = some w) :
    mnemonic_to_bytes m flag = .error (.unknownWord w) :=
  decode_unknown_word m flag w hcount hfind

/-- C7 witness: a 12-word phrase containing two absent words fails naming
the first of them. -/
theorem C7_unknown_word_witness :
    (¬((pySplit "abandon zebra abandon abandon abandon abandon abandon abandon abandon abandon abandon yyy").length % 3 ≠ 0 ∨
      (pySplit "abandon zebra abandon abandon abandon abandon abandon abandon abandon abandon abandon yyy").length < 12) ∧
      (pySplit "abandon zebra abandon abandon abandon abandon abandon abandon abandon abandon abandon yyy").find?
        (fun v => decide (v ∉ WORDLIST)) = some "zebra") ∧
    mnemonic_to_bytes
      "abandon zebra abandon abandon abandon abandon abandon abandon abandon abandon abandon yyy"
      false = .error (.unknownWord "zebra") :=
  ⟨⟨by decide, by decide⟩,
    C7_unknown_word
      "abandon zebra abandon abandon abandon abandon abandon abandon abandon abandon abandon yyy"
      false "zebra" (by decide) (by decide)⟩

/-- `_extract_index` (lines 100-106) reads byte `pos / 8` of its buffer at
the last loop step `pos = 11 n + 10`; when that byte is out of bounds the
subscript fails, so the extraction yields no value. -/
theorem extract_index_none (b : List Nat) (n : Nat)
    (h : b.length ≤ (n * 11 + 10) / 8) :
    extract_index 11 b n = none := by
  unfold extract_index
  have hsplit : List.range' (n * 11) 11 = List.range' (n * 11) 10 ++ [n * 11 + 10] := by
    have h1 := List.range'_append (n * 11) 10 1 1
    simp only [Nat.mul_one] at h1
    rw [← h1]
    simp [List.range'_one]
  rw [hsplit, List.foldl_append]
  have hg : b.get? ((n * 11 + 10) / 8) = none := by
    rw [List.get?_eq_getElem?]
    exact List.getElem?_eq_none h
  cases List.foldl _ (some 0) (List.range' (n * 11) 10) with
  | none => rfl
  | some v =>
    show (b.get? ((n * 11 + 10) / 8)).map _ = none
    rw [hg]
    rfl

/-- When a lookup of the index loop fails, `mnemonic_from_bytes` on a
length that is a multiple of 4 raises rather than returning a phrase. -/
theorem mnemonic_from_bytes_none (b : List Nat) (h4 : b.length % 4 = 0)
    (h : mapLookup
      (fun i => (extract_index 11 (b ++ sha256 b) i).bind
        (fun idx => WORDLIST.get? idx))
      (List.range ((b.length * 8 + b.length * 8 / 32) / 11)) = none) :
    mnemonic_from_bytes b = .error .indexOutOfRange := by
  unfold mnemonic_from_bytes
  rw [if_neg (by omega)]
  simp only []
  rw [h]

/-- C8 (amended): for every byte string whose length is a multiple of 4
and at most 1024, every extracted 11-bit index is defined and below 2048,
and encoding succeeds. The bound cannot be dropped: the original claim
fails at length 1028. -/
theorem C8_encode_total_bounded (b : List Nat) (h4 : b.length % 4 = 0)
    (hlen : b.length ≤ 1024) :
    (∀ i, i < (b.length * 8 + b.length * 8 / 32) / 11 →
      extract_index 11 (b ++ sha256 b) i = some (specIndex (b ++ sha256 b) i) ∧
      specIndex (b ++ sha256 b) i < 2048) ∧
    ∃ phrase, mnemonic_from_bytes b = .ok phrase := by
  refine ⟨?_, ⟨_, mnemonic_from_bytes_ok b h4 hlen⟩⟩
  intro i hi
  have hfull : (b ++ sha256 b).length = b.length + 32 := by
    rw [List.length_append, sha256_length]
  refine ⟨extract_index_eq _ _ ?_, specIndex_lt _ _⟩
  rw [hfull]
  omega

/-- C8 witness: totality of the extraction at the 16 zero bytes. -/
theorem C8_encode_total_bounded_witness :
    (∀ i, i < ((List.replicate 16 (0 : Nat)).length * 8 +
        (List.replicate 16 (0 : Nat)).length * 8 / 32) / 11 →
      extract_index 11 (List.replicate 16 0 ++ sha256 (List.replicate 16 0)) i =
        some (specIndex (List.replicate 16 0 ++ sha256 (List.replicate 16 0)) i) ∧
      specIndex (List.replicate 16 0 ++ sha256 (List.replicate 16 0)) i < 2048) ∧
    ∃ phrase, mnemonic_from_bytes (List.replicate 16 0) = .ok phrase :=
  C8_encode_total_bounded (List.replicate 16 0) (by decide) (by decide)

/-- C8 counterexample: at 1028 zero bytes (a multiple of 4) the last index
extraction reads byte 1060 of the 1060-byte extended buffer, so the loop
fails and `mnemonic_from_bytes` raises instead of returning a phrase. -/
theorem C8_counterexample_1028 :
    (List.replicate 1028 (0 : Nat)).length % 4 = 0 ∧
    mnemonic_from_bytes (List.replicate 1028 0) = .error .indexOutOfRange := by
  have h4 : (List.replicate 1028 (0 : Nat)).length % 4 = 0 := by simp
  refine ⟨h4, mnemonic_from_bytes_none _ h4 ?_⟩
  apply mapLookup_none _ _ 770
  · refine List.mem_range.mpr ?_
    rw [List.length_replicate]
    norm_num
  · rw [extract_index_none _ 770 (by
      rw [List.length_append, sha256_length, List.length_replicate])]
    rfl

/-- C9: the caller's buffer is not left unchanged: line 117 `b += checksum`
extends the mutable `bytearray` argument in place by the 32-byte SHA-256
digest, so after encoding 16 zero bytes the caller's buffer holds 48 bytes
and differs from the input. -/
theorem C9_buffer_mutated :
    mnemonic_from_bytes_buffer_after (List.replicate 16 0) ≠
      List.replicate 16 0 ∧
    (mnemonic_from_bytes_buffer_after (List.replicate 16 0)).length = 48 :=
  ⟨by decide, by decide⟩

/-- C10: `mnemonic_to_bytes` depends on its input string only through the
whitespace-separated word sequence: two strings with the same split give
the same result, entropy or error, for either flag value. -/
theorem C10_whitespace_invariance (s1 s2 : String) (flag : Bool)
    (h : pySplit s1 = pySplit s2) :
    mnemonic_to_bytes s1 flag = mnemonic_to_bytes s2 flag := by
  unfold mnemonic_to_bytes
  rw [h]

/-- C10 witness: a tab, a trailing newline, leading blanks and doubled
blanks do not change the decode result. -/
theorem C10_whitespace_invariance_witness :
    pySplit "abandon\tabout\n" = pySplit "  abandon  about" ∧
    mnemonic_to_bytes "abandon\tabout\n" false =
      mnemonic_to_bytes "  abandon  about" false :=
  ⟨by decide, C10_whitespace_invariance "abandon\tabout\n" "  abandon  about" false
    (by decide)⟩

/-! ### Validation of the modelled hash primitives against standard digests -/

example : sha256 [] =
    [0xE3, 0xB0, 0xC4, 0x42, 0x98, 0xFC, 0x1C, 0x14, 0x9A, 0xFB, 0xF4, 0xC8,
     0x99, 0x6F, 0xB9, 0x24, 0x27, 0xAE, 0x41, 0xE4, 0x64, 0x9B, 0x93, 0x4C,
     0xA4, 0x95, 0x99, 0x1B, 0x78, 0x52, 0xB8, 0x55] := by decide

example : sha256 [0x61, 0x62, 0x63] =
    [0xBA, 0x78, 0x16, 0xBF, 0x8F, 0x01, 0xCF, 0xEA, 0x41, 0x41, 0x40, 0xDE,
     0x5D, 0xAE, 0x22, 0x23, 0xB0, 0x03, 0x61, 0xA3, 0x96, 0x17, 0x7A, 0x9C,
     0xB4, 0x10, 0xFF, 0x61, 0xF2, 0x00, 0x15, 0xAD] := by decide

example : sha512 [0x61, 0x62, 0x63] =
    [0xDD, 0xAF, 0x35, 0xA1, 0x93, 0x61, 0x7A, 0xBA, 0xCC, 0x41, 0x73, 0x49,
     0xAE, 0x20, 0x41, 0x31, 0x12, 0xE6, 0xFA, 0x4E, 0x89, 0xA9, 0x7E, 0xA2,
     0x0A, 0x9E, 0xEE, 0xE6, 0x4B, 0x55, 0xD3, 0x9A, 0x21, 0x92, 0x99, 0x2A,
     0x27, 0x4F, 0xC1, 0xA8, 0x36, 0xBA, 0x3C, 0x23, 0xA3, 0xFE, 0xEB, 0xBD,
     0x45, 0x4D, 0x44, 0x23, 0x64, 0x3C, 0xE8, 0x0E, 0x2A, 0x9A, 0xC9, 0x4F,
     0xA5, 0x4C, 0xA4, 0x9F] := by decide

example : hmacSha512 [0x6B, 0x65, 0x79] [0x6D, 0x73, 0x67] =
    [0x1E, 0x4B, 0x55, 0xB9, 0x25, 0xCC, 0xC2, 0x8E, 0xD9, 0x0D, 0x9D, 0x18,
     0xFC, 0x23, 0x93, 0xFC, 0xBE, 0x16, 0x4C, 0x0D, 0x84, 0xE6, 0x7E, 0x17,
     0x3C, 0xC5, 0xAA, 0x48, 0x6B, 0x7A, 0xFC, 0x10, 0x66, 0x33, 0xC6, 0x6B,
     0xDC, 0x30, 0x90, 0x76, 0xF5, 0xF8, 0xD9, 0xFD, 0xBB, 0xB6, 0x24, 0x56,
     0xF8, 0x94, 0xF2, 0xC2, 0x33, 0x77, 0xFB, 0xCC, 0x12, 0xF4, 0xAB, 0x29,
     0x40, 0xEB, 0x6D, 0x70] := by decide

example : pbkdf2HmacSha512 [0x70, 0x77] [0x73, 0x61, 0x6C, 0x74] 3 64 =
    [0x6A, 0x7B, 0xE2, 0x4F, 0x5B, 0x46, 0xC5, 0xC3, 0x76, 0x9D, 0x73, 0xA6,
     0x68, 0x9B, 0x3A, 0xD7, 0x9F, 0x9F, 0x24, 0x5A, 0x1C, 0xDB, 0x20, 0xE4,
     0x1E, 0xE9, 0xD5, 0xA3, 0x1B, 0xEA, 0x14, 0x44, 0x5F, 0x54, 0xA3, 0x62,
     0x85, 0x0D, 0xD4, 0xDC, 0x7D, 0x6A, 0x22, 0xB7, 0x14, 0xD3, 0xD0, 0x56,
     0x35, 0x42, 0x5C, 0x3F, 0x12, 0x79, 0x51, 0xDF, 0xB8, 0xF1, 0xD9, 0xBF,
     0x88, 0xF1, 0x43, 0x53] := by decide

end Bip39
